import Mathlib

/-!
# Verification of the `wpundo.c` undo/redo engine (wpeditor)

This file shallowly embeds the undo/redo transaction engine of
`src/wpundo.c` together with the abstract text-buffer interface it drives
(`GtkTextBuffer`, used through character offsets only), and proves or
refutes the frozen claims about it.

Modelling conventions:

* A text buffer is a list of characters, each paired with the set of tags
  (attribute spans) applied to it.  Tag sets are kept as strictly sorted
  lists of tag identities, the canonical set representation.  Tags are
  opaque identities (`Nat`); the named-tag special cases of the source
  (the private bullet tag of the text buffer, and the `image-tag-*`
  renaming in `wp_undo_apply_saved_tags`) concern GTK tag objects that are
  never among the recorded span identities in this model, so those
  branches are modelled as not taken.
* Offsets are `Nat`; `gtk_text_buffer_get_iter_at_offset` clamps to the
  buffer length, which the buffer operations reproduce.
* The C lists (`GSList`) are Lean lists; `g_slist_prepend` is `::`.
* Allocation is explicit: the record functions take an `allocOk` flag that
  decides the checked allocation of the source
  (`g_new0`/`gtk_text_buffer_get_slice`); when it is `false` the
  `emit_no_memory` failure path runs.
* `current_op` is a pointer into the head group of the undo queue.  It is
  modelled by `CurOpRef`: `live` aliases the first operation of the first
  undo-queue group, `stale` is the dangling pointer left behind after
  `emit_no_memory` (or a full trim) freed the group that contained it; a
  write through a stale pointer changes no queue.
* Signal emission is modelled by an append-only event log.
-/

/-- U+FFFC, the object replacement character placed under embedded images. -/
def objectReplacementChar : Char := Char.ofNat 0xFFFC

/-- `g_unichar_isspace` restricted to the characters of this model. -/
def gUnicharIsspace (c : Char) : Bool := c.isWhitespace

/-- Opaque identity of a `GtkTextTag` (an attribute span). -/
abbrev TagId := Nat

/-- One buffer character together with the set of tags applied to it,
kept as a strictly sorted list. -/
abbrev BufChar := Char × List TagId

/-- Insert a tag into a sorted tag set (canonical set insertion). -/
def tagInsert (t : TagId) : List TagId → List TagId
  | [] => [t]
  | u :: us =>
    if t < u then t :: u :: us
    else if t = u then u :: us
    else u :: tagInsert t us

/-- Remove a tag from a tag set. -/
def tagErase (t : TagId) : List TagId → List TagId
  | [] => []
  | u :: us => if t = u then tagErase t us else u :: tagErase t us

/-- The tag set of the character at offset `p` (empty past the end);
`gtk_text_iter_get_tags`. -/
def tagsAtC (cs : List BufChar) (p : Nat) : List TagId :=
  ((cs.get? p).map Prod.snd).getD []

/-- `gtk_text_iter_toggles_tag (…, NULL)`: some tag starts or ends at
offset `p`, i.e. the tag sets at `p - 1` and `p` differ. -/
def togglesAnyTagAt (cs : List BufChar) (p : Nat) : Bool :=
  decide (tagsAtC cs p ≠ (if p = 0 then [] else tagsAtC cs (p - 1)))

/-- Insert a run of characters at offset `p` (assumed `≤` length). -/
def insertCharsAt (cs : List BufChar) (p : Nat) (w : List BufChar) : List BufChar :=
  cs.take p ++ w ++ cs.drop p

/-- Delete the range `[s, e)`. -/
def deleteCharsRange (cs : List BufChar) (s e : Nat) : List BufChar :=
  cs.take s ++ cs.drop e

/-- Rewrite every character in `[s, e)` with `f`. -/
def mapCharsRange (f : BufChar → BufChar) (cs : List BufChar) (s e : Nat) : List BufChar :=
  cs.take s ++ ((cs.take e).drop s).map f ++ cs.drop e

/-- Apply tag `t` over `[s, e)`. -/
def applyTagChars (t : TagId) (cs : List BufChar) (s e : Nat) : List BufChar :=
  mapCharsRange (fun c => (c.1, tagInsert t c.2)) cs s e

/-- Remove tag `t` over `[s, e)`. -/
def removeTagChars (t : TagId) (cs : List BufChar) (s e : Nat) : List BufChar :=
  mapCharsRange (fun c => (c.1, tagErase t c.2)) cs s e

/-- `gtk_text_buffer_remove_all_tags` over `[s, e)`. -/
def removeAllTagsChars (cs : List BufChar) (s e : Nat) : List BufChar :=
  mapCharsRange (fun c => (c.1, [])) cs s e

/-- The character slice of `[s, e)` (`gtk_text_buffer_get_slice`). -/
def sliceChars (cs : List BufChar) (s e : Nat) : List Char :=
  ((cs.take e).drop s).map Prod.fst

/-- Mark position after an insertion of `n` characters at `p`
(right-gravity marks, as the insert and selection-bound marks are). -/
def markAfterInsert (m p n : Nat) : Nat := if p ≤ m then m + n else m

/-- Mark position after deleting `[lo, hi)`. -/
def markAfterDelete (m lo hi : Nat) : Nat :=
  if hi ≤ m then m - (hi - lo) else if lo ≤ m then lo else m

/-- The host text buffer: characters with their tag sets, plus the
`insert` and `selection_bound` marks. -/
structure TextBuffer where
  chars : List BufChar
  insertMark : Nat := 0
  selBound : Nat := 0
deriving DecidableEq, Repr

/-- Clamp an offset to the buffer (what `get_iter_at_offset` does). -/
def TextBuffer.clampOff (b : TextBuffer) (p : Nat) : Nat := min p b.chars.length

/-- `gtk_text_buffer_insert` at offset `p`; newly inserted characters
carry no tags. -/
def TextBuffer.insertAt (b : TextBuffer) (p : Nat) (w : List Char) : TextBuffer :=
  let q := b.clampOff p
  { chars := insertCharsAt b.chars q (w.map (fun c => (c, []))),
    insertMark := markAfterInsert b.insertMark q w.length,
    selBound := markAfterInsert b.selBound q w.length }

/-- `gtk_text_buffer_delete` of the range `[s, e)`. -/
def TextBuffer.deleteRange (b : TextBuffer) (s e : Nat) : TextBuffer :=
  let lo := min (b.clampOff s) (b.clampOff e)
  let hi := max (b.clampOff s) (b.clampOff e)
  { chars := deleteCharsRange b.chars lo hi,
    insertMark := markAfterDelete b.insertMark lo hi,
    selBound := markAfterDelete b.selBound lo hi }

/-- `gtk_text_buffer_apply_tag` over `[s, e)`. -/
def TextBuffer.applyTag (b : TextBuffer) (t : TagId) (s e : Nat) : TextBuffer :=
  let lo := min (b.clampOff s) (b.clampOff e)
  let hi := max (b.clampOff s) (b.clampOff e)
  { b with chars := applyTagChars t b.chars lo hi }

/-- `gtk_text_buffer_remove_tag` over `[s, e)`. -/
def TextBuffer.removeTag (b : TextBuffer) (t : TagId) (s e : Nat) : TextBuffer :=
  let lo := min (b.clampOff s) (b.clampOff e)
  let hi := max (b.clampOff s) (b.clampOff e)
  { b with chars := removeTagChars t b.chars lo hi }

/-- `gtk_text_buffer_remove_all_tags` over `[s, e)`. -/
def TextBuffer.removeAllTags (b : TextBuffer) (s e : Nat) : TextBuffer :=
  let lo := min (b.clampOff s) (b.clampOff e)
  let hi := max (b.clampOff s) (b.clampOff e)
  { b with chars := removeAllTagsChars b.chars lo hi }

/-- `gtk_text_buffer_place_cursor`. -/
def TextBuffer.placeCursor (b : TextBuffer) (p : Nat) : TextBuffer :=
  { b with insertMark := b.clampOff p, selBound := b.clampOff p }

/-- `gtk_text_buffer_select_range` (first argument is the insert mark). -/
def TextBuffer.selectRange (b : TextBuffer) (i s : Nat) : TextBuffer :=
  { b with insertMark := b.clampOff i, selBound := b.clampOff s }

/-- `gtk_text_buffer_get_selection_bounds` (ordered). -/
def TextBuffer.selectionBounds (b : TextBuffer) : Nat × Nat :=
  (min b.insertMark b.selBound, max b.insertMark b.selBound)

/-- The text content of the buffer. -/
def TextBuffer.text (b : TextBuffer) : List Char := b.chars.map Prod.fst

/-- One saved tag command (`WPUndoTag` in the source): apply or remove
`tag` over `[start, stop)`. -/
structure WPUndoTag where
  apply : Bool
  start : Nat
  stop : Nat
  tag : TagId
deriving DecidableEq, Repr

/-- `wp_undo_create_tag`. -/
def wp_undo_create_tag (start stop : Nat) (tag : TagId) (enable : Bool) : WPUndoTag :=
  { apply := enable, start := start, stop := stop, tag := tag }

/-- `wp_undo_apply_saved_tags`: first pass executes the remove commands,
second pass the apply commands (see the comment in the source about
apply/remove pairs for the same tag).  The `image-tag-*` renaming branch
is not modelled: tag identities here are never image tags. -/
def wp_undo_apply_saved_tags (b : TextBuffer) (tags : List WPUndoTag) : TextBuffer :=
  let b1 := tags.foldl
    (fun b tg => if tg.apply then b else b.removeTag tg.tag tg.start tg.stop) b
  tags.foldl
    (fun b tg => if tg.apply then b.applyTag tg.tag tg.start tg.stop else b) b1

/-- Loop body of `wp_undo_get_toggled_tags`.  `opens` maps each tag that
is active at position `p - 1` to the offset where it became active; the
source keeps it in the shared hash table (offset by one to avoid a NULL
value).  Walking every position instead of only the toggle positions is
extensionally the same, because nothing is emitted where no tag toggles.
The source's emission order within one position comes from GTK's internal
tag order and the hash-table iteration order; this model fixes a
deterministic order, which no consumer of the list distinguishes. -/
def sweepAux (cs : List BufChar) (e : Nat) : Nat → Nat → List (TagId × Nat) →
    List WPUndoTag
  | 0, _, opens => opens.map (fun o => wp_undo_create_tag o.2 e o.1 true)
  | fuel + 1, p, opens =>
    if p < e then
      let cur := tagsAtC cs p
      let closed := opens.filter (fun o => decide (o.1 ∉ cur))
      let kept := opens.filter (fun o => decide (o.1 ∈ cur))
      let opened := cur.filter (fun t => decide (t ∉ opens.map Prod.fst))
      closed.map (fun o => wp_undo_create_tag o.2 p o.1 true) ++
        sweepAux cs e fuel (p + 1) (kept ++ opened.map (fun t => (t, p)))
    else
      opens.map (fun o => wp_undo_create_tag o.2 e o.1 true)

/-- `wp_undo_get_toggled_tags`: seed the table with every tag active at
`start`, walk the toggle positions up to `end`, then flush the still-open
tags clipped to `end`.  The fuel `e` is an upper bound on the number of
loop steps (the loop runs while `p < e`); it only makes the structural
recursion explicit and never runs out before the position test fails. -/
def wp_undo_get_toggled_tags (cs : List BufChar) (s e : Nat) : List WPUndoTag :=
  sweepAux cs e e (s + 1) ((tagsAtC cs s).map (fun t => (t, s)))

/-- `WPUndoType`. -/
inductive WPUndoType where
  | insert
  | delete
  | tag
  | simple_justify
  | select
  | fmt
  | last_line_justify
deriving DecidableEq, Repr

/-- `WPUndoOperation`.  `stop` is the source's `end` field. -/
structure WPUndoOperation where
  type : WPUndoType
  start : Nat := 0
  stop : Nat := 0
  text : List Char := []
  orig_tag : Option TagId := none
  tag : Option TagId := none
  orig_tags : List WPUndoTag := []
  tags : List WPUndoTag := []
  sel_start : Nat := 0
  sel_end : Nat := 0
  old_line_justify : Int := 0
  new_line_justify : Int := 0
  mergeable : Bool := false
  backspace : Bool := false
  rich_text : Bool := false
deriving DecidableEq, Repr

/-- `update_tags_range`. -/
def update_tags_range (tags : List WPUndoTag) (start stop : Nat) : List WPUndoTag :=
  tags.map (fun tg => { tg with start := start, stop := stop })

/-- `remove_image_tags`: replace every U+FFFC by a plain space. -/
def remove_image_tags : List Char → List Char
  | [] => []
  | c :: cs => (if c = objectReplacementChar then ' ' else c) :: remove_image_tags cs

/-- The signals of `WPUndo`, as recorded in the event log. -/
inductive WPSignal where
  | can_undo (enabled : Bool)
  | can_redo (enabled : Bool)
  | fmt_changed (rich_text : Bool)
  | last_line_justify (justification : Int)
  | no_memory
deriving DecidableEq, Repr

/-- The `current_op` pointer.  `live` aliases the first operation of the
first group of the undo queue (where `wp_undo_add_queue` always leaves
it); `stale` is a dangling pointer to a freed operation, kept with the
value it had, so that reads through it are deterministic and writes
through it change no queue. -/
inductive CurOpRef where
  | null
  | live
  | stale (op : WPUndoOperation)
deriving DecidableEq, Repr

/-- `WPUndoPrivate`.  Groups are lists of operations, most recently
recorded first (`g_slist_prepend`); queues are lists of groups, most
recent group first.  `events` is the log of emitted signals. -/
structure WPUndoPrivate where
  undo_queue : List (List WPUndoOperation) := []
  redo_queue : List (List WPUndoOperation) := []
  current_op : CurOpRef := .null
  last_char_is_space : Bool := false
  first_in_group : Bool := false
  group : Int := 0
  undo_disabled : Int := 0
  max_undo_level : Nat := 5
  undo_queue_len : Nat := 0
  undo_sent : Bool := false
  redo_sent : Bool := false
  low_mem : Bool := false
  disable_this_group : Bool := false
  events : List WPSignal := []
deriving DecidableEq, Repr

/-- The undo object together with the text buffer it works on. -/
structure WPUndo where
  buf : TextBuffer
  priv : WPUndoPrivate
deriving DecidableEq, Repr

/-- `wp_undo_new`. -/
def wp_undo_new (b : TextBuffer) : WPUndo := { buf := b, priv := {} }

/-- The operation `current_op` points at, if any. -/
def curOpVal (u : WPUndo) : Option WPUndoOperation :=
  match u.priv.current_op with
  | .null => none
  | .live =>
    match u.priv.undo_queue with
    | (op :: _) :: _ => some op
    | _ => none
  | .stale op => some op

/-- Write through `current_op`: a live pointer rewrites the head
operation of the head undo group, a stale pointer only rewrites the
dangling value. -/
def setCurOp (u : WPUndo) (op : WPUndoOperation) : WPUndo :=
  match u.priv.current_op with
  | .live =>
    { u with priv := { u.priv with undo_queue :=
        match u.priv.undo_queue with
        | (_ :: rest) :: gs => (op :: rest) :: gs
        | q => q } }
  | .stale _ => { u with priv := { u.priv with current_op := .stale op } }
  | .null => u

/-- `wp_undo_freeze`. -/
def wp_undo_freeze (u : WPUndo) : WPUndo :=
  { u with priv := { u.priv with undo_disabled := u.priv.undo_disabled + 1 } }

/-- `wp_undo_thaw`. -/
def wp_undo_thaw (u : WPUndo) : WPUndo :=
  { u with priv := { u.priv with undo_disabled := u.priv.undo_disabled - 1 } }

/-- `wp_undo_is_enabled`. -/
def wp_undo_is_enabled (u : WPUndo) : Bool :=
  decide (u.priv.undo_disabled = 0) && !u.priv.low_mem

/-- `wp_undo_start_group`. -/
def wp_undo_start_group (u : WPUndo) : WPUndo :=
  let g := u.priv.group + 1
  if g = 1 then
    { u with priv :=
        { u.priv with group := g, first_in_group := true, disable_this_group := false } }
  else
    { u with priv := { u.priv with group := g } }

/-- `wp_undo_end_group`. -/
def wp_undo_end_group (u : WPUndo) : WPUndo :=
  let g := u.priv.group - 1
  if g = 0 then
    { u with priv := { u.priv with group := g, disable_this_group := false } }
  else
    { u with priv := { u.priv with group := g } }

/-- `wp_undo_send_signals`: emit `can_redo`/`can_undo` when the queue
state changed since the last emission. -/
def wp_undo_send_signals (u : WPUndo) : WPUndo :=
  let enable := !u.priv.low_mem
  let redoNow := !u.priv.redo_queue.isEmpty
  let u :=
    if (u.priv.redo_sent != redoNow) && enable then
      { u with priv :=
          { u.priv with
            redo_sent := redoNow && enable
            events := u.priv.events ++ [.can_redo (redoNow && enable)] } }
    else u
  let undoNow := !u.priv.undo_queue.isEmpty
  if (u.priv.undo_sent != undoNow) && enable then
    { u with priv :=
        { u.priv with
          undo_sent := undoNow && enable
          events := u.priv.events ++ [.can_undo (undoNow && enable)] } }
  else u

/-- `wp_undo_can_undo`. -/
def wp_undo_can_undo (u : WPUndo) : Bool :=
  !u.priv.undo_queue.isEmpty && !u.priv.low_mem

/-- `wp_undo_can_redo`. -/
def wp_undo_can_redo (u : WPUndo) : Bool :=
  !u.priv.redo_queue.isEmpty && !u.priv.low_mem

/-- `wp_undo_reset_mergeable`: clear the mergeable flag of the current
operation and drop the `current_op`/`current_op_list` pointers. -/
def wp_undo_reset_mergeable (u : WPUndo) : WPUndo :=
  match curOpVal u with
  | none => u
  | some op =>
    let u := setCurOp u { op with mergeable := false }
    { u with priv := { u.priv with current_op := .null } }

/-- `emit_no_memory`: emit the signal; unless this group recorded nothing
yet (or is already disabled), free the whole head group of the undo queue
(leaving `current_op` dangling and, faithfully to the source, without
decrementing `undo_queue_len`); finally disable the rest of this group. -/
def emit_no_memory (u : WPUndo) : WPUndo :=
  let u := { u with priv := { u.priv with events := u.priv.events ++ [.no_memory] } }
  let u :=
    if !u.priv.first_in_group && !u.priv.disable_this_group &&
        !u.priv.undo_queue.isEmpty then
      let dangling :=
        match u.priv.current_op, u.priv.undo_queue with
        | .live, (op :: _) :: _ => CurOpRef.stale op
        | c, _ => c
      wp_undo_send_signals
        { u with priv :=
            { u.priv with
              undo_queue := u.priv.undo_queue.tail
              current_op := dangling } }
    else u
  { u with priv := { u.priv with disable_this_group := true } }

/-- The group-boundary block of `wp_undo_add_queue`: on the first
operation outside or at the start of a group, sever merging and clear
the first-in-group flag. -/
def addQueueFresh (u : WPUndo) : WPUndo :=
  if u.priv.group = 0 || u.priv.first_in_group then
    let u := wp_undo_reset_mergeable u
    { u with priv := { u.priv with first_in_group := false } }
  else u

/-- The list-splicing block of `wp_undo_add_queue`: prepend `op` to the
current operation list and make that list the head group (a fresh group
when there is no current operation; when `current_op` dangles, the
remembered dangling value stands in for the freed list the source would
splice back in). -/
def addQueuePrepend (u : WPUndo) (op : WPUndoOperation) : WPUndo :=
  match u.priv.current_op with
  | .null =>
    { u with priv :=
        { u.priv with
          undo_queue := [op] :: u.priv.undo_queue
          current_op := .live } }
  | .live =>
    { u with priv :=
        { u.priv with
          undo_queue :=
            match u.priv.undo_queue with
            | g :: gs => (op :: g) :: gs
            | [] => [[op]]
          current_op := .live } }
  | .stale stOp =>
    { u with priv :=
        { u.priv with
          undo_queue :=
            match u.priv.undo_queue with
            | _ :: gs => [op, stOp] :: gs
            | [] => [[op, stOp]]
          current_op := .live } }

/-- The capacity block of `wp_undo_add_queue`: when the operation opened
a new group and the bound is exceeded, clamp the length counter and free
everything beyond the newest `max_undo_level` groups. -/
def addQueueEvict (u : WPUndo) (first_in_group : Bool) : WPUndo :=
  if first_in_group then
    if u.priv.undo_queue_len + 1 > u.priv.max_undo_level then
      { u with priv :=
          { u.priv with
            undo_queue_len := u.priv.max_undo_level
            undo_queue := u.priv.undo_queue.take u.priv.max_undo_level } }
    else
      { u with priv := { u.priv with undo_queue_len := u.priv.undo_queue_len + 1 } }
  else u

/-- `wp_undo_add_queue`: filter the text payload, drop the operation when
the group is disabled, otherwise prepend it to the current operation
list, clear the redo queue, and evict the oldest group when a new group
exceeds `max_undo_level`. -/
def wp_undo_add_queue (u : WPUndo) (op0 : WPUndoOperation) : WPUndo :=
  let first_in_group := u.priv.first_in_group
  let op := { op0 with text := remove_image_tags op0.text }
  if u.priv.disable_this_group then u
  else
    let u := addQueueFresh u
    let u := addQueuePrepend u op
    let u : WPUndo := { u with priv := { u.priv with redo_queue := [] } }
    wp_undo_send_signals (addQueueEvict u first_in_group)

/-- The null byte `g_utf8_get_char` reads from an empty C string. -/
def nulChar : Char := Char.ofNat 0

/-- Creation part of `wp_undo_insert_text` (after the merge attempt
failed or was not applicable): allocate the operation, remember the
whitespace state, and add it to the queue.  The source checks two
allocations (`g_new0` and `g_strdup`); `allocOk` models the first, whose
failure path does not update `last_char_is_space`. -/
def wp_undo_insert_text_new (u : WPUndo) (allocOk : Bool) (cstart cstop : Nat)
    (text : List Char) (mergeableB is_space : Bool) : WPUndo :=
  if !allocOk then emit_no_memory u
  else
    let op : WPUndoOperation :=
      { type := .insert, start := cstart, stop := cstop, text := text,
        mergeable := mergeableB }
    let u := { u with priv := { u.priv with last_char_is_space := is_space } }
    wp_undo_add_queue u op

/-- `wp_undo_insert_text`: record an insertion of `text` at offset `pos`
(the offset of the `pos` iterator).  A single-character, non-newline
insertion is mergeable; it merges into the current operation when that is
a mergeable insert ending exactly at `pos` and the whitespace-transition
rule allows it (the new character is a space, or the last recorded
character was not).  Faithfully to the source, `update_tags_range` runs
before the operation's end offset is advanced. -/
def wp_undo_insert_text (u : WPUndo) (allocOk : Bool) (pos : Nat) (text : List Char) :
    WPUndo :=
  if u.priv.undo_disabled > 0 || u.priv.low_mem then u
  else
    let cstart := pos
    let cstop := pos + text.length
    let mergeableB := !(decide (cstop - cstart > 1) || decide (text.headD nulChar = '\n'))
    let is_space := mergeableB && gUnicharIsspace (text.headD nulChar)
    match curOpVal u with
    | some la =>
      if mergeableB && la.mergeable && decide (la.type = WPUndoType.insert) then
        if decide (la.stop = cstart) && (is_space || !u.priv.last_char_is_space) then
          let la' :=
            { la with
              text := la.text ++ text
              tags := update_tags_range la.tags la.start la.stop
              stop := cstop }
          let u := setCurOp u la'
          { u with priv := { u.priv with last_char_is_space := is_space } }
        else
          let u := setCurOp u { la with mergeable := false }
          wp_undo_insert_text_new u allocOk cstart cstop text mergeableB is_space
      else
        wp_undo_insert_text_new u allocOk cstart cstop text mergeableB is_space
    | none =>
      wp_undo_insert_text_new u allocOk cstart cstop text mergeableB is_space

/-- Creation part of `wp_undo_delete_range` (the straight-line code after
the merge block): build the delete operation with the sweep snapshot of
the doomed range, remember the whitespace state, add it to the queue. -/
def wp_undo_delete_range_new (u : WPUndo) (s e : Nat) (ctext : List Char)
    (cb mergeableTags is_space : Bool) : WPUndo :=
  let op : WPUndoOperation :=
    { type := .delete, start := s, stop := e, text := ctext,
      backspace := cb, mergeable := mergeableTags,
      tags := wp_undo_get_toggled_tags u.buf.chars s e }
  let u := { u with priv := { u.priv with last_char_is_space := is_space } }
  wp_undo_add_queue u op

/-- `wp_undo_delete_range`: record a deletion of `[s, e)` before the host
deletes it.  `co.backspace` is compared against the insert-mark offset
while `co.start` is still zero-initialised, so it is simply
`0 < insertMark` (faithful to the source).  `allocOk` models the
`gtk_text_buffer_get_slice` allocation. -/
def wp_undo_delete_range (u : WPUndo) (allocOk : Bool) (s e : Nat) : WPUndo :=
  if u.priv.undo_disabled > 0 || u.priv.low_mem then u
  else
    let cb := decide (0 < u.buf.insertMark)
    if !allocOk then emit_no_memory u
    else
      let ctext := sliceChars u.buf.chars s e
      let is_space := gUnicharIsspace (ctext.headD nulChar)
      let cmerge := !(decide (e - s > 1) || decide (ctext.headD nulChar = '\n'))
      let mergeableTags :=
        if cmerge then
          if cb then !togglesAnyTagAt u.buf.chars s else !togglesAnyTagAt u.buf.chars e
        else false
      match curOpVal u with
      | some la =>
        if cmerge && la.mergeable && decide (la.type = WPUndoType.delete) &&
            decide (la.backspace = cb) then
          if cb && decide (la.start = e) && (is_space || !u.priv.last_char_is_space) then
            let la' :=
              { la with
                text := ctext ++ la.text
                start := s
                tags := update_tags_range la.tags s la.stop
                mergeable := mergeableTags }
            let u := setCurOp u la'
            { u with priv := { u.priv with last_char_is_space := is_space } }
          else if !cb && decide (la.stop = s) && (is_space || !u.priv.last_char_is_space) then
            let la' :=
              { la with
                text := la.text ++ ctext
                stop := e
                tags := update_tags_range la.tags la.start e
                mergeable := mergeableTags }
            let u := setCurOp u la'
            { u with priv := { u.priv with last_char_is_space := is_space } }
          else
            let u := setCurOp u { la with mergeable := false }
            wp_undo_delete_range_new u s e ctext cb mergeableTags is_space
        else wp_undo_delete_range_new u s e ctext cb mergeableTags is_space
      | none => wp_undo_delete_range_new u s e ctext cb mergeableTags is_space

/-- `wp_undo_apply_tag`: with a current operation and a non-NULL tag,
book the tag command onto the current insert/tag/format operation; with a
NULL tag, snapshot the original styling of `[s, e)` into a fresh tag
operation. -/
def wp_undo_apply_tag (u : WPUndo) (allocOk : Bool) (s e : Nat)
    (tag : Option TagId) (enable : Bool) : WPUndo :=
  if u.priv.undo_disabled > 0 || u.priv.low_mem then u
  else
    match curOpVal u, tag with
    | some op, some t =>
      match op.type with
      | .insert =>
        setCurOp u { op with tags := op.tags ++ [wp_undo_create_tag s e t enable] }
      | .tag =>
        if decide (op.start ≤ s) && decide (e ≤ op.stop) then
          setCurOp u { op with tags := wp_undo_create_tag s e t enable :: op.tags }
        else u
      | .fmt =>
        setCurOp u { op with tags := wp_undo_create_tag s e t enable :: op.tags }
      | _ => u
    | cur, none =>
      if !allocOk then emit_no_memory u
      else
        let op : WPUndoOperation :=
          { type := .tag, start := s, stop := e,
            orig_tags := wp_undo_get_toggled_tags u.buf.chars s e,
            mergeable := false }
        let _ := cur
        wp_undo_add_queue u op
    | none, some _ => u

/-- Creation part of `wp_undo_selection_changed`: a fresh selection
operation is recorded only for a non-empty selection, and is created
mergeable. -/
def wp_undo_selection_changed_new (u : WPUndo) (allocOk : Bool) (istart iend : Nat) :
    WPUndo :=
  if decide (istart = iend) then u
  else if !allocOk then emit_no_memory u
  else
    wp_undo_add_queue u
      { type := .select, sel_start := istart, sel_end := iend, mergeable := true }

/-- `wp_undo_selection_changed`: merge into the current selection
operation when one end of the selection is unchanged and the operation is
still mergeable (early return); otherwise clear its mergeable flag and
record a fresh selection operation. -/
def wp_undo_selection_changed (u : WPUndo) (allocOk : Bool) (istart iend : Nat) :
    WPUndo :=
  if u.priv.undo_disabled > 0 || u.priv.low_mem then u
  else
    match curOpVal u with
    | some op =>
      if decide (op.type = WPUndoType.select) then
        if (decide (op.sel_start = istart) || decide (op.sel_end = iend)) &&
            op.mergeable then
          setCurOp u { op with sel_start := istart, sel_end := iend }
        else
          let u := setCurOp u { op with mergeable := false }
          wp_undo_selection_changed_new u allocOk istart iend
      else wp_undo_selection_changed_new u allocOk istart iend
    | none => wp_undo_selection_changed_new u allocOk istart iend

/-- `wp_undo_simple_justification`. -/
def wp_undo_simple_justification (u : WPUndo) (allocOk : Bool) (s e : Nat)
    (orig_tag : Option TagId) (tag : Option TagId) : WPUndo :=
  if u.priv.undo_disabled > 0 || u.priv.low_mem then u
  else if !allocOk then emit_no_memory u
  else
    wp_undo_add_queue u
      { type := .simple_justify, orig_tag := orig_tag, tag := tag,
        start := s, stop := e, mergeable := false }

/-- `wp_undo_format_changed`: snapshot the whole document's styling. -/
def wp_undo_format_changed (u : WPUndo) (allocOk : Bool) (rich_text : Bool) : WPUndo :=
  if u.priv.undo_disabled > 0 || u.priv.low_mem then u
  else if !allocOk then emit_no_memory u
  else
    wp_undo_add_queue u
      { type := .fmt, rich_text := rich_text,
        tags := wp_undo_get_toggled_tags u.buf.chars 0 u.buf.chars.length }

/-- `wp_undo_last_line_justify`. -/
def wp_undo_last_line_justify (u : WPUndo) (allocOk : Bool)
    (old_line_justify new_line_justify : Int) : WPUndo :=
  if u.priv.undo_disabled > 0 || u.priv.low_mem then u
  else if !allocOk then emit_no_memory u
  else
    wp_undo_add_queue u
      { type := .last_line_justify, old_line_justify := old_line_justify,
        new_line_justify := new_line_justify }

/-- Second, non-recursing round of `wp_undo_redo_selection` (called with
`first = FALSE`): if the current selection already equals the
operation's, collapse the cursor to its end, otherwise select it. -/
def redoSelectionStep (b : TextBuffer) (op : WPUndoOperation) : TextBuffer :=
  let bounds := b.selectionBounds
  let st := b.clampOff op.sel_start
  let en := b.clampOff op.sel_end
  if decide (bounds.1 = st) && decide (bounds.2 = en) then b.placeCursor en
  else b.selectRange st en

/-- `wp_undo_redo_selection` entered with `first = TRUE`: when the
current selection already equals the operation's, peek at the head
operation of the next queued group; if that is also a selection, recurse
into it once (the recursion passes `first = FALSE`, so it cannot repeat
again), otherwise collapse the cursor to the end. -/
def wp_undo_redo_selection (b : TextBuffer) (queue : List (List WPUndoOperation))
    (op : WPUndoOperation) : TextBuffer :=
  let bounds := b.selectionBounds
  let st := b.clampOff op.sel_start
  let en := b.clampOff op.sel_end
  if decide (bounds.1 = st) && decide (bounds.2 = en) then
    match queue with
    | (pop :: _) :: _ =>
      if decide (pop.type = WPUndoType.select) then redoSelectionStep b pop
      else b.placeCursor en
    | _ => b.placeCursor en
  else b.selectRange st en

/-- Effect of undoing one operation inside `wp_undo_undo`'s loop:
returns the new buffer, the new proposed cursor position and the signals
emitted.  `queue` is the undo queue after the group was popped (used by
the selection chaining).  The bullet-tag special case of the insert
branch only adjusts the proposed cursor position when the private bullet
tag toggles at the start iterator; bullet tags are not among the span
identities of this model, so that branch is not taken. -/
def undoOpStep (queue : List (List WPUndoOperation)) (b : TextBuffer)
    (pcp : Option Nat) (op : WPUndoOperation) :
    TextBuffer × Option Nat × List WPSignal :=
  match op.type with
  | .delete =>
    let p := b.clampOff op.start
    let b1 := b.insertAt op.start op.text
    let eoff := p + op.text.length
    let s2 := b1.clampOff op.start
    let b2 := b1.removeAllTags s2 eoff
    let b3 := wp_undo_apply_saved_tags b2 op.tags
    (b3, some (if op.backspace then op.stop else op.start), [])
  | .insert =>
    (b.deleteRange op.start op.stop, some op.start, [])
  | .tag =>
    let b1 := b.selectRange op.start op.stop
    let b2 := b1.removeAllTags op.start op.stop
    (wp_undo_apply_saved_tags b2 op.orig_tags, pcp, [])
  | .select =>
    (wp_undo_redo_selection b queue op, pcp, [])
  | .fmt =>
    if !op.rich_text then
      let mark := b.insertMark
      let b1 := wp_undo_apply_saved_tags b op.tags
      let b2 := b1.placeCursor mark
      (b2, none, [.fmt_changed (!op.rich_text)])
    else
      (b.removeAllTags 0 b.chars.length, pcp, [.fmt_changed (!op.rich_text)])
  | .simple_justify =>
    let b1 :=
      match op.tag with
      | some t => b.removeTag t op.start op.stop
      | none => b
    let b2 :=
      match op.orig_tag with
      | some t => b1.applyTag t op.start op.stop
      | none => b1
    (b2, pcp, [])
  | .last_line_justify =>
    (b, pcp, [.last_line_justify op.old_line_justify])

/-- The trailing `wp_undo_reset_mergeable` of `wp_undo_undo`, acting
through the still-set `current_op` pointer: a live pointer now aliases
the head operation of the group that was just pushed onto the redo
queue, so that operation's mergeable flag is cleared; afterwards the
pointer is dropped. -/
def undoTrailingReset (u : WPUndo) : WPUndo :=
  match u.priv.current_op with
  | .live =>
    { u with priv :=
        { u.priv with
          redo_queue :=
            match u.priv.redo_queue with
            | (op :: rest) :: rs => ({ op with mergeable := false } :: rest) :: rs
            | q => q
          current_op := .null } }
  | .stale _ => { u with priv := { u.priv with current_op := .null } }
  | .null => u

/-- `wp_undo_undo`: pop the head group onto the redo queue and apply its
operations, in the stored list order, each inverted; then place the
cursor at the proposed position if one was produced.  The trailing
`wp_undo_reset_mergeable` acts through the still-set `current_op`
pointer, which after the move aliases the head operation of the group
that was just pushed onto the redo queue. -/
def wp_undo_undo (u : WPUndo) : WPUndo :=
  if u.priv.undo_queue.isEmpty || u.priv.low_mem then u
  else
    match u.priv.undo_queue with
    | [] => u
    | g :: gs =>
      let u :=
        { u with priv :=
            { u.priv with
              undo_queue := gs
              redo_queue := g :: u.priv.redo_queue
              undo_queue_len := u.priv.undo_queue_len - 1
              undo_disabled := u.priv.undo_disabled + 1 } }
      let step := fun (acc : TextBuffer × Option Nat × List WPSignal) op =>
        let r := undoOpStep gs acc.1 acc.2.1 op
        (r.1, r.2.1, acc.2.2 ++ r.2.2)
      let res := g.foldl step (u.buf, none, [])
      let u := { u with buf := res.1 }
      let u := { u with priv := { u.priv with events := u.priv.events ++ res.2.2 } }
      let u :=
        match res.2.1 with
        | some p => { u with buf := u.buf.placeCursor p }
        | none => u
      let u := wp_undo_thaw u
      wp_undo_send_signals (undoTrailingReset u)

/-- Effect of redoing one operation inside `wp_undo_redo`'s loop.
`queue` is the redo queue after the group was popped.  In the tag branch
the source reads `op->tags->data` into an unused local, a NULL
dereference when the operation recorded no tag command; the dead read is
not modelled (the claims about replay are restricted to operations with
at least one recorded change).  `_wp_text_iter_skip_bullet` in the format
branch concerns the private bullet tag only and leaves this model's
buffers unchanged. -/
def redoOpStep (queue : List (List WPUndoOperation)) (b : TextBuffer)
    (pcp : Option Nat) (op : WPUndoOperation) :
    TextBuffer × Option Nat × List WPSignal :=
  match op.type with
  | .delete =>
    (b.deleteRange op.start op.stop,
      some (if op.backspace then op.stop else op.start), [])
  | .insert =>
    let b1 := b.insertAt op.start op.text
    (wp_undo_apply_saved_tags b1 op.tags, some op.stop, [])
  | .tag =>
    let b1 := b.selectRange op.start op.stop
    (wp_undo_apply_saved_tags b1 op.tags, pcp, [])
  | .select =>
    (wp_undo_redo_selection b queue op, pcp, [])
  | .fmt =>
    if op.rich_text then
      (wp_undo_apply_saved_tags b op.tags, pcp, [.fmt_changed op.rich_text])
    else
      (b.removeAllTags 0 b.chars.length, pcp, [.fmt_changed op.rich_text])
  | .simple_justify =>
    let b1 :=
      match op.orig_tag with
      | some t => b.removeTag t op.start op.stop
      | none => b
    let b2 :=
      match op.tag with
      | some t => b1.applyTag t op.start op.stop
      | none => b1
    (b2, pcp, [])
  | .last_line_justify =>
    (b, pcp, [.last_line_justify op.new_line_justify])

/-- `wp_undo_redo`: pop the head group of the redo queue onto the undo
queue, reverse it in place and replay it forward.  Faithfully to the
source, the undo-queue node keeps its old data pointer: after
`g_slist_reverse` that pointer designates the former head cell, now the
tail, so the group left on the undo queue consists of the formerly first
stored operation alone (the remaining cells leak).  The loop clears
`current_op` on every iteration, before the trailing
`wp_undo_reset_mergeable`. -/
def wp_undo_redo (u : WPUndo) : WPUndo :=
  if u.priv.redo_queue.isEmpty || u.priv.low_mem then u
  else
    match u.priv.redo_queue with
    | [] => u
    | g :: gs =>
      let u :=
        { u with priv :=
            { u.priv with
              redo_queue := gs
              undo_queue :=
                (match g with
                 | op :: _ => [op]
                 | [] => []) :: u.priv.undo_queue
              undo_queue_len := u.priv.undo_queue_len + 1
              undo_disabled := u.priv.undo_disabled + 1
              current_op := if g.isEmpty then u.priv.current_op else .null } }
      let step := fun (acc : TextBuffer × Option Nat × List WPSignal) op =>
        let r := redoOpStep gs acc.1 acc.2.1 op
        (r.1, r.2.1, acc.2.2 ++ r.2.2)
      let res := g.reverse.foldl step (u.buf, none, [])
      let u := { u with buf := res.1 }
      let u := { u with priv := { u.priv with events := u.priv.events ++ res.2.2 } }
      let u :=
        match res.2.1 with
        | some p => { u with buf := u.buf.placeCursor p }
        | none => u
      let u := wp_undo_thaw u
      let u := wp_undo_reset_mergeable u
      wp_undo_send_signals u

/-- `wp_undo_reset`: clear both queues (faithfully to the source,
`undo_queue_len` is not reset). -/
def wp_undo_reset (u : WPUndo) : WPUndo :=
  let u := wp_undo_reset_mergeable u
  let u := { u with priv := { u.priv with undo_queue := [], redo_queue := [] } }
  wp_undo_send_signals u

/-- Setting the `low_memory` property: entering low-memory mode clears
the whole history. -/
def wp_undo_set_low_mem (u : WPUndo) (low : Bool) : WPUndo :=
  let u := { u with priv := { u.priv with low_mem := low } }
  if low then wp_undo_reset u else u

/-- Setting the `undo_levels` property (the GObject property system
clamps the value into `[MIN_UNDO_LEVEL, MAX_UNDO_LEVEL]`).  Shrinking
trims the decrease first from the redo queue; if groups remain to be
trimmed from a non-empty undo queue, the source looks the trim point up
in `priv->redo_queue` — which that same branch has just emptied — and
dereferences the NULL result, modelled as `none` (crash). -/
def wp_undo_set_undo_level (u : WPUndo) (lvl : Int) : Option WPUndo :=
  let new_size : Int := max 5 (min 200 lvl)
  let old : Int := u.priv.max_undo_level
  if new_size - old < 0 then
    let size0 := (old - new_size).toNat
    let qsize := u.priv.redo_queue.length
    let trimmed :=
      if qsize > size0 then
        ({ u with priv :=
            { u.priv with redo_queue := u.priv.redo_queue.take (qsize - size0) } }, 0)
      else
        ({ u with priv := { u.priv with redo_queue := [] } }, size0 - qsize)
    let u := trimmed.1
    let size := trimmed.2
    if size > 0 then
      if u.priv.undo_queue_len > size then none
      else
        let cur :=
          match u.priv.current_op, u.priv.undo_queue with
          | .live, (op :: _) :: _ => CurOpRef.stale op
          | c, _ => c
        some (wp_undo_send_signals
          { u with priv :=
              { u.priv with
                undo_queue := []
                undo_queue_len := 0
                current_op := cur
                max_undo_level := new_size.toNat } })
    else
      some (wp_undo_send_signals
        { u with priv := { u.priv with max_undo_level := new_size.toNat } })
  else
    some (wp_undo_send_signals
      { u with priv := { u.priv with max_undo_level := new_size.toNat } })

/-- A recorded host mutation: the host performs the mutation on the
buffer and reports it to the engine through the corresponding
`wp_undo_*` hook (insertion and deletion are reported before the default
handler runs, so the deletion hook still sees the doomed range). -/
inductive TxCmd where
  | ins (pos : Nat) (text : List Char)
  | del (start stop : Nat)
  | spanToggle (start stop : Nat) (changes : List (TagId × Bool))
deriving DecidableEq, Repr

/-- Execute one recorded mutation: record it, then mutate the buffer.
A span toggle first snapshots the original styling
(`wp_undo_apply_tag` with a NULL tag), then performs and records each
tag change over the range. -/
def execTxCmd (u : WPUndo) : TxCmd → WPUndo
  | .ins pos text =>
    let u := wp_undo_insert_text u true pos text
    { u with buf := u.buf.insertAt pos text }
  | .del s e =>
    let u := wp_undo_delete_range u true s e
    { u with buf := u.buf.deleteRange s e }
  | .spanToggle s e changes =>
    let u := wp_undo_apply_tag u true s e none false
    changes.foldl
      (fun u ch =>
        let u := { u with buf := if ch.2 then u.buf.applyTag ch.1 s e else u.buf.removeTag ch.1 s e }
        wp_undo_apply_tag u true s e (some ch.1) ch.2)
      u

/-- Execute one transaction (a `begin`/`end` bracketed command list). -/
def execTx (u : WPUndo) (tx : List TxCmd) : WPUndo :=
  wp_undo_end_group (tx.foldl execTxCmd (wp_undo_start_group u))

/-- Execute a list of transactions. -/
def runTxs (u : WPUndo) (txs : List (List TxCmd)) : WPUndo :=
  txs.foldl execTx u

/-- A tag entry in a sweep result covers position `x` with tag `t`. -/
def tagCovered (L : List WPUndoTag) (t : TagId) (x : Nat) : Prop :=
  ∃ tg ∈ L, tg.tag = t ∧ tg.start ≤ x ∧ x < tg.stop

theorem tagCovered_append {L M : List WPUndoTag} {t : TagId} {x : Nat} :
    tagCovered (L ++ M) t x ↔ tagCovered L t x ∨ tagCovered M t x := by
  constructor
  · rintro ⟨tg, htg, rest⟩
    rcases List.mem_append.mp htg with h | h
    · exact Or.inl ⟨tg, h, rest⟩
    · exact Or.inr ⟨tg, h, rest⟩
  · rintro (⟨tg, htg, rest⟩ | ⟨tg, htg, rest⟩)
    · exact ⟨tg, List.mem_append.mpr (Or.inl htg), rest⟩
    · exact ⟨tg, List.mem_append.mpr (Or.inr htg), rest⟩

theorem tagCovered_map_pair {f : TagId × Nat → WPUndoTag} {os : List (TagId × Nat)}
    {t : TagId} {x : Nat} :
    tagCovered (os.map f) t x ↔ ∃ o ∈ os, (f o).tag = t ∧ (f o).start ≤ x ∧ x < (f o).stop := by
  constructor
  · rintro ⟨tg, htg, rest⟩
    rcases List.mem_map.mp htg with ⟨o, ho, rfl⟩
    exact ⟨o, ho, rest⟩
  · rintro ⟨o, ho, rest⟩
    exact ⟨f o, List.mem_map.mpr ⟨o, ho, rfl⟩, rest⟩

/-- Coverage of the flushing step of the sweep: every still-open entry
is emitted clipped to `e`. -/
theorem sweepFlush_covered (cs : List BufChar) (e p : Nat)
    (opens : List (TagId × Nat)) (hp : 1 ≤ p) (he : e ≤ p)
    (hkeys : ∀ t, (∃ q, (t, q) ∈ opens) ↔ t ∈ tagsAtC cs (p - 1))
    (hlt : ∀ o ∈ opens, o.2 < p) :
    ∀ x t, tagCovered (opens.map (fun o => wp_undo_create_tag o.2 e o.1 true)) t x ↔
      (x < e ∧ if p - 1 ≤ x then t ∈ tagsAtC cs x else ∃ q, (t, q) ∈ opens ∧ q ≤ x) := by
  intro x t
  rw [tagCovered_map_pair]
  constructor
  · rintro ⟨⟨t0, q⟩, ho, htag, hs, hx⟩
    simp only [wp_undo_create_tag] at htag hs hx
    subst htag
    have hq := hlt _ ho
    by_cases hx0 : p - 1 ≤ x
    · have hxeq : x = p - 1 := by omega
      subst hxeq
      rw [if_pos hx0]
      exact ⟨hx, (hkeys t0).mp ⟨q, ho⟩⟩
    · rw [if_neg hx0]
      exact ⟨hx, q, ho, hs⟩
  · rintro ⟨hxe, hcond⟩
    by_cases hx0 : p - 1 ≤ x
    · rw [if_pos hx0] at hcond
      have hxeq : x = p - 1 := by omega
      subst hxeq
      rcases (hkeys t).mpr hcond with ⟨q, hq⟩
      refine ⟨(t, q), hq, ?_⟩
      have hq2 : q < p := hlt (t, q) hq
      simp [wp_undo_create_tag]
      omega
    · rw [if_neg hx0] at hcond
      rcases hcond with ⟨q, hq, hqx⟩
      refine ⟨(t, q), hq, ?_⟩
      simp [wp_undo_create_tag]
      omega

/-- Coverage of the sweep loop: a position `x` below `e` is covered with
tag `t` exactly when either `x` is at or beyond the already-processed
frontier `p - 1` and tag `t` is applied at `x`, or `x` lies before the
frontier and one of the still-open entries started at or before `x`. -/
theorem sweepAux_covered (cs : List BufChar) (e : Nat) :
    ∀ (fuel p : Nat) (opens : List (TagId × Nat)), e ≤ p + fuel → 1 ≤ p →
    (∀ t, (∃ q, (t, q) ∈ opens) ↔ t ∈ tagsAtC cs (p - 1)) →
    (∀ o ∈ opens, o.2 < p) →
    ∀ x t, tagCovered (sweepAux cs e fuel p opens) t x ↔
      (x < e ∧ if p - 1 ≤ x then t ∈ tagsAtC cs x else ∃ q, (t, q) ∈ opens ∧ q ≤ x) := by
  intro fuel
  induction fuel with
  | zero =>
    intro p opens hfe hp hkeys hlt x t
    exact sweepFlush_covered cs e p opens hp (by omega) hkeys hlt x t
  | succ fuel ih =>
    intro p opens hfe hp hkeys hlt x t
    rw [sweepAux]
    by_cases he : p < e
    · rw [if_pos he]
      rw [tagCovered_append, tagCovered_map_pair]
      have hclosed : (∃ o ∈ List.filter (fun o => decide (o.1 ∉ tagsAtC cs p)) opens,
            (wp_undo_create_tag o.2 p o.1 true).tag = t ∧
            (wp_undo_create_tag o.2 p o.1 true).start ≤ x ∧
            x < (wp_undo_create_tag o.2 p o.1 true).stop) ↔
          (∃ q, (t, q) ∈ opens ∧ q ≤ x) ∧ t ∉ tagsAtC cs p ∧ x < p := by
        constructor
        · rintro ⟨⟨t0, q⟩, ho, htag, hs, hx⟩
          simp only [wp_undo_create_tag] at htag hs hx
          subst htag
          rcases List.mem_filter.mp ho with ⟨hmem, hdec⟩
          exact ⟨⟨q, hmem, hs⟩, by simpa using hdec, hx⟩
        · rintro ⟨⟨q, hmem, hq⟩, hnot, hx⟩
          refine ⟨(t, q), List.mem_filter.mpr ⟨hmem, by simpa using hnot⟩, ?_⟩
          simp [wp_undo_create_tag, hq, hx]
      rw [hclosed]
      set opens' := (List.filter (fun o => decide (o.1 ∈ tagsAtC cs p)) opens) ++
        (List.filter (fun t => decide (t ∉ List.map Prod.fst opens)) (tagsAtC cs p)).map
          (fun t => (t, p)) with hopens'
      have hkeys' : ∀ t, (∃ q, (t, q) ∈ opens') ↔ t ∈ tagsAtC cs ((p + 1) - 1) := by
        intro t0
        simp only [Nat.add_sub_cancel, hopens']
        constructor
        · rintro ⟨q, hq⟩
          rcases List.mem_append.mp hq with h | h
          · exact (by simpa using (List.mem_filter.mp h).2)
          · rcases List.mem_map.mp h with ⟨t1, ht1, heq⟩
            cases heq
            exact (List.mem_filter.mp ht1).1
        · intro hmem
          by_cases hin : t0 ∈ List.map Prod.fst opens
          · rcases List.mem_map.mp hin with ⟨⟨t1, q⟩, hq, rfl⟩
            exact ⟨q, List.mem_append.mpr (Or.inl (List.mem_filter.mpr ⟨hq, by simpa using hmem⟩))⟩
          · refine ⟨p, List.mem_append.mpr (Or.inr ?_)⟩
            exact List.mem_map.mpr ⟨t0, List.mem_filter.mpr ⟨hmem, by simpa using hin⟩, rfl⟩
      have hlt' : ∀ o ∈ opens', o.2 < p + 1 := by
        intro o ho
        rcases List.mem_append.mp ho with h | h
        · exact Nat.lt_succ_of_lt (hlt _ (List.mem_filter.mp h).1)
        · rcases List.mem_map.mp h with ⟨t1, _, heq⟩
          cases heq
          omega
      have ihres := ih (p + 1) opens' (by omega) (by omega) hkeys' hlt' x t
      rw [ihres]
      simp only [Nat.add_sub_cancel]
      by_cases hx1 : p ≤ x
      · have hx0 : p - 1 ≤ x := by omega
        rw [if_pos hx1, if_pos hx0]
        constructor
        · rintro (⟨_, _, hxp⟩ | ⟨hxe, hm⟩)
          · omega
          · exact ⟨hxe, hm⟩
        · rintro ⟨hxe, hm⟩
          exact Or.inr ⟨hxe, hm⟩
      · by_cases hx0 : p - 1 ≤ x
        · have hxeq : x = p - 1 := by omega
          subst hxeq
          rw [if_neg hx1, if_pos hx0]
          constructor
          · rintro (⟨⟨q, hq, _⟩, _, _⟩ | ⟨_, q, hq, _⟩)
            · exact ⟨by omega, (hkeys t).mp ⟨q, hq⟩⟩
            · rcases List.mem_append.mp hq with h | h
              · exact ⟨by omega, (hkeys t).mp ⟨_, (List.mem_filter.mp h).1⟩⟩
              · rcases List.mem_map.mp h with ⟨t1, _, heq⟩
                cases heq
                omega
          · rintro ⟨-, hmem⟩
            by_cases hcur : t ∈ tagsAtC cs p
            · rcases (hkeys t).mpr hmem with ⟨q, hq⟩
              refine Or.inr ⟨by omega, q, List.mem_append.mpr (Or.inl (List.mem_filter.mpr ⟨hq, by simpa using hcur⟩)), ?_⟩
              have := hlt _ hq
              omega
            · rcases (hkeys t).mpr hmem with ⟨q, hq⟩
              refine Or.inl ⟨⟨q, hq, ?_⟩, hcur, by omega⟩
              have := hlt _ hq
              omega
        · rw [if_neg hx1, if_neg hx0]
          have hxe : x < e := by omega
          constructor
          · rintro (⟨⟨q, hq, hqx⟩, _, _⟩ | ⟨_, q, hq, hqx⟩)
            · exact ⟨hxe, q, hq, hqx⟩
            · rcases List.mem_append.mp hq with h | h
              · exact ⟨hxe, q, (List.mem_filter.mp h).1, hqx⟩
              · rcases List.mem_map.mp h with ⟨t1, _, heq⟩
                cases heq
                omega
          · rintro ⟨-, q, hq, hqx⟩
            by_cases hcur : t ∈ tagsAtC cs p
            · exact Or.inr ⟨hxe, q, List.mem_append.mpr (Or.inl (List.mem_filter.mpr ⟨hq, by simpa using hcur⟩)), hqx⟩
            · exact Or.inl ⟨⟨q, hq, hqx⟩, hcur, by omega⟩
    · rw [if_neg he]
      exact sweepFlush_covered cs e p opens hp (by omega) hkeys hlt x t

/-- Every snapshot emitted by the sweep loop has positive length, as long
as every open entry starts before the current position and before `e`. -/
theorem sweepAux_pos (cs : List BufChar) (e : Nat) :
    ∀ (fuel p : Nat) (opens : List (TagId × Nat)),
    (∀ o ∈ opens, o.2 < p ∧ o.2 < e) →
    ∀ tg ∈ sweepAux cs e fuel p opens, tg.start < tg.stop := by
  intro fuel
  induction fuel with
  | zero =>
    intro p opens hlt tg htg
    rcases List.mem_map.mp htg with ⟨o, ho, rfl⟩
    have := hlt o ho
    simp only [wp_undo_create_tag]
    omega
  | succ fuel ih =>
    intro p opens hlt tg htg
    rw [sweepAux] at htg
    by_cases he : p < e
    · rw [if_pos he] at htg
      rcases List.mem_append.mp htg with h | h
      · rcases List.mem_map.mp h with ⟨o, ho, rfl⟩
        have := hlt o (List.mem_filter.mp ho).1
        simp only [wp_undo_create_tag]
        omega
      · refine ih (p + 1) _ ?_ tg h
        intro o ho
        rcases List.mem_append.mp ho with h1 | h1
        · have := hlt o (List.mem_filter.mp h1).1
          omega
        · rcases List.mem_map.mp h1 with ⟨t1, _, heq⟩
          cases heq
          omega
    · rw [if_neg he] at htg
      rcases List.mem_map.mp htg with ⟨o, ho, rfl⟩
      have := hlt o ho
      simp only [wp_undo_create_tag]
      omega

/-- Every snapshot emitted by the sweep loop stays inside `[lo, e]` and
is an apply instruction. -/
theorem sweepAux_bounds (cs : List BufChar) (e : Nat) (lo : Nat) :
    ∀ (fuel p : Nat) (opens : List (TagId × Nat)), lo ≤ p →
    (∀ o ∈ opens, lo ≤ o.2) →
    ∀ tg ∈ sweepAux cs e fuel p opens,
      lo ≤ tg.start ∧ tg.stop ≤ e ∧ tg.apply = true := by
  intro fuel
  induction fuel with
  | zero =>
    intro p opens hp hlo tg htg
    rcases List.mem_map.mp htg with ⟨o, ho, rfl⟩
    simp only [wp_undo_create_tag]
    exact ⟨hlo o ho, le_refl e, trivial⟩
  | succ fuel ih =>
    intro p opens hp hlo tg htg
    rw [sweepAux] at htg
    by_cases he : p < e
    · rw [if_pos he] at htg
      rcases List.mem_append.mp htg with h | h
      · rcases List.mem_map.mp h with ⟨o, ho, rfl⟩
        have := hlo o (List.mem_filter.mp ho).1
        simp only [wp_undo_create_tag]
        exact ⟨this, by omega, trivial⟩
      · refine ih (p + 1) _ (by omega) ?_ tg h
        intro o ho
        rcases List.mem_append.mp ho with h1 | h1
        · exact hlo o (List.mem_filter.mp h1).1
        · rcases List.mem_map.mp h1 with ⟨t1, _, heq⟩
          cases heq
          exact hp
    · rw [if_neg he] at htg
      rcases List.mem_map.mp htg with ⟨o, ho, rfl⟩
      simp only [wp_undo_create_tag]
      exact ⟨hlo o ho, le_refl e, trivial⟩


/-- When the position is already at or past `e`, the sweep loop only
flushes the open entries, whatever fuel is left. -/
theorem sweepAux_flush (cs : List BufChar) (e fuel p : Nat)
    (opens : List (TagId × Nat)) (he : ¬ p < e) :
    sweepAux cs e fuel p opens =
      opens.map (fun o => wp_undo_create_tag o.2 e o.1 true) := by
  cases fuel with
  | zero => rfl
  | succ fuel => rw [sweepAux, if_neg he]

/-- Exact coverage of `wp_undo_get_toggled_tags`: a position is covered
by the sweep of `[s, e)` with tag `t` exactly when it lies in the range
and carries `t`. -/
theorem wp_undo_get_toggled_tags_covered (cs : List BufChar) (s e : Nat) :
    ∀ x t, tagCovered (wp_undo_get_toggled_tags cs s e) t x ↔
      (s ≤ x ∧ x < e ∧ t ∈ tagsAtC cs x) := by
  intro x t
  have h := sweepAux_covered cs e e (s + 1) ((tagsAtC cs s).map (fun t => (t, s)))
    (by omega) (by omega) ?_ ?_ x t
  · rw [wp_undo_get_toggled_tags, h]
    simp only [Nat.add_sub_cancel]
    by_cases hx : s ≤ x
    · rw [if_pos hx]
      constructor
      · rintro ⟨h1, h2⟩
        exact ⟨hx, h1, h2⟩
      · rintro ⟨_, h1, h2⟩
        exact ⟨h1, h2⟩
    · rw [if_neg hx]
      constructor
      · rintro ⟨-, q, hq, hqx⟩
        rcases List.mem_map.mp hq with ⟨t1, _, heq⟩
        cases heq
        omega
      · rintro ⟨h1, _, _⟩
        omega
  · intro t0
    constructor
    · rintro ⟨q, hq⟩
      rcases List.mem_map.mp hq with ⟨t1, ht1, heq⟩
      cases heq
      simpa using ht1
    · intro hmem
      exact ⟨s, List.mem_map.mpr ⟨t0, by simpa using hmem, rfl⟩⟩
  · intro o ho
    rcases List.mem_map.mp ho with ⟨t1, _, heq⟩
    cases heq
    omega

/-- Counterexample to the claim as stated: sweeping the zero-length
range `[0, 0)` of a one-character buffer whose character carries tag `7`
does not return the empty list (it returns one zero-length snapshot). -/
theorem sweep_zero_length_counterexample :
    wp_undo_get_toggled_tags [('a', [7])] 0 0 ≠ [] ∧
    wp_undo_get_toggled_tags [('a', [7])] 0 0 =
      [{ apply := true, start := 0, stop := 0, tag := 7 }] := by
  constructor
  · decide
  · decide

/-- C8, amended: the sweep of a zero-length range `[s, s)` yields one
zero-length snapshot per tag active at `s` — hence the empty list exactly
when no tag is active there — while for every non-empty range `s < e` no
returned snapshot has zero length (in particular none for a span whose
boundary coincides with `start` or `end`). -/
theorem sweep_zero_length_range_amended (cs : List BufChar) (s e : Nat) :
    (s = e →
      wp_undo_get_toggled_tags cs s e =
        (tagsAtC cs s).map (fun t => { apply := true, start := s, stop := s, tag := t })) ∧
    (s < e → ∀ tg ∈ wp_undo_get_toggled_tags cs s e, tg.start < tg.stop) := by
  constructor
  · rintro rfl
    rw [wp_undo_get_toggled_tags, sweepAux_flush cs s s (s + 1) _ (by omega)]
    simp [wp_undo_create_tag, List.map_map, Function.comp]
  · intro hse
    rw [wp_undo_get_toggled_tags]
    apply sweepAux_pos
    intro o ho
    rcases List.mem_map.mp ho with ⟨t1, _, heq⟩
    cases heq
    omega

/-- Witness for the amended C8 statement at concrete inputs. -/
theorem sweep_zero_length_range_amended_witness :
    (wp_undo_get_toggled_tags [('a', [7])] 0 0 =
      [{ apply := true, start := 0, stop := 0, tag := 7 }]) ∧
    (∀ tg ∈ wp_undo_get_toggled_tags [('a', [7]), ('b', [7, 9]), ('c', [9])] 0 3,
      tg.start < tg.stop) := by
  constructor
  · have h := (sweep_zero_length_range_amended [('a', [7])] 0 0).1 rfl
    rw [h]
    decide
  · exact (sweep_zero_length_range_amended [('a', [7]), ('b', [7, 9]), ('c', [9])] 0 3).2
      (by decide)

/-- `wp_undo_send_signals` only appends to the event log and updates the
two `sent` flags; every other component is untouched. -/
@[simp] theorem wp_undo_send_signals_buf (u : WPUndo) :
    (wp_undo_send_signals u).buf = u.buf := by
  rw [wp_undo_send_signals]
  dsimp only
  split <;> split <;> rfl

@[simp] theorem wp_undo_send_signals_undo_queue (u : WPUndo) :
    (wp_undo_send_signals u).priv.undo_queue = u.priv.undo_queue := by
  rw [wp_undo_send_signals]
  dsimp only
  split <;> split <;> rfl

@[simp] theorem wp_undo_send_signals_redo_queue (u : WPUndo) :
    (wp_undo_send_signals u).priv.redo_queue = u.priv.redo_queue := by
  rw [wp_undo_send_signals]
  dsimp only
  split <;> split <;> rfl

@[simp] theorem wp_undo_send_signals_current_op (u : WPUndo) :
    (wp_undo_send_signals u).priv.current_op = u.priv.current_op := by
  rw [wp_undo_send_signals]
  dsimp only
  split <;> split <;> rfl

@[simp] theorem wp_undo_send_signals_last_char (u : WPUndo) :
    (wp_undo_send_signals u).priv.last_char_is_space = u.priv.last_char_is_space := by
  rw [wp_undo_send_signals]
  dsimp only
  split <;> split <;> rfl

@[simp] theorem wp_undo_send_signals_first_in_group (u : WPUndo) :
    (wp_undo_send_signals u).priv.first_in_group = u.priv.first_in_group := by
  rw [wp_undo_send_signals]
  dsimp only
  split <;> split <;> rfl

@[simp] theorem wp_undo_send_signals_group (u : WPUndo) :
    (wp_undo_send_signals u).priv.group = u.priv.group := by
  rw [wp_undo_send_signals]
  dsimp only
  split <;> split <;> rfl

@[simp] theorem wp_undo_send_signals_undo_disabled (u : WPUndo) :
    (wp_undo_send_signals u).priv.undo_disabled = u.priv.undo_disabled := by
  rw [wp_undo_send_signals]
  dsimp only
  split <;> split <;> rfl

@[simp] theorem wp_undo_send_signals_max_undo_level (u : WPUndo) :
    (wp_undo_send_signals u).priv.max_undo_level = u.priv.max_undo_level := by
  rw [wp_undo_send_signals]
  dsimp only
  split <;> split <;> rfl

@[simp] theorem wp_undo_send_signals_undo_queue_len (u : WPUndo) :
    (wp_undo_send_signals u).priv.undo_queue_len = u.priv.undo_queue_len := by
  rw [wp_undo_send_signals]
  dsimp only
  split <;> split <;> rfl

@[simp] theorem wp_undo_send_signals_low_mem (u : WPUndo) :
    (wp_undo_send_signals u).priv.low_mem = u.priv.low_mem := by
  rw [wp_undo_send_signals]
  dsimp only
  split <;> split <;> rfl

@[simp] theorem wp_undo_send_signals_disable_this_group (u : WPUndo) :
    (wp_undo_send_signals u).priv.disable_this_group = u.priv.disable_this_group := by
  rw [wp_undo_send_signals]
  dsimp only
  split <;> split <;> rfl

/-- The state reached by typing the five characters of "hello" one at a
time inside one transaction on an empty buffer. -/
def helloScenario : WPUndo :=
  runTxs (wp_undo_new { chars := [] })
    [[TxCmd.ins 0 ['h'], TxCmd.ins 1 ['e'], TxCmd.ins 2 ['l'], TxCmd.ins 3 ['l'],
      TxCmd.ins 4 ['o']]]

/-- The state reached by typing "hello world" one character at a time
inside one transaction on an empty buffer. -/
def helloWorldScenario : WPUndo :=
  runTxs (wp_undo_new { chars := [] })
    [[TxCmd.ins 0 ['h'], TxCmd.ins 1 ['e'], TxCmd.ins 2 ['l'], TxCmd.ins 3 ['l'],
      TxCmd.ins 4 ['o'], TxCmd.ins 5 [' '], TxCmd.ins 6 ['w'], TxCmd.ins 7 ['o'],
      TxCmd.ins 8 ['r'], TxCmd.ins 9 ['l'], TxCmd.ins 10 ['d']]]

/-- C5: a newly recorded single-character non-newline insertion merges
into the preceding insert operation (the current one, still mergeable)
exactly when its start offset equals that operation's end offset and the
new character is a space or the last previously accumulated character
was not a space; consequently typing "hello" one character at a time in
one transaction yields exactly one insert operation with text "hello",
and typing "hello world" yields exactly two insert operations split at
the word boundary. -/
theorem insert_merge_rule_and_word_granularity :
    (∀ (u : WPUndo) (la : WPUndoOperation)
      (gRest : List WPUndoOperation) (gs : List (List WPUndoOperation))
      (pos : Nat) (c : Char),
      u.priv.undo_queue = (la :: gRest) :: gs →
      u.priv.current_op = CurOpRef.live →
      la.type = WPUndoType.insert →
      la.mergeable = true →
      ¬ c = '\n' →
      u.priv.group ≠ 0 →
      u.priv.first_in_group = false →
      u.priv.disable_this_group = false →
      u.priv.undo_disabled = 0 →
      u.priv.low_mem = false →
      (wp_undo_insert_text u true pos [c]).priv.undo_queue =
        (if la.stop = pos ∧ (gUnicharIsspace c = true ∨ u.priv.last_char_is_space = false)
         then ({ la with text := la.text ++ [c], tags := update_tags_range la.tags la.start la.stop, stop := pos + 1 } :: gRest) :: gs
         else ({ type := WPUndoType.insert, start := pos, stop := pos + 1, text := remove_image_tags [c], mergeable := true } :: { la with mergeable := false } :: gRest) :: gs)) ∧
    helloScenario.priv.undo_queue =
      [[{ type := WPUndoType.insert, start := 0, stop := 5,
          text := ['h', 'e', 'l', 'l', 'o'], mergeable := true }]] ∧
    helloWorldScenario.priv.undo_queue =
      [[{ type := WPUndoType.insert, start := 6, stop := 11,
          text := ['w', 'o', 'r', 'l', 'd'], mergeable := true },
        { type := WPUndoType.insert, start := 0, stop := 6,
          text := ['h', 'e', 'l', 'l', 'o', ' '], mergeable := false }]] := by
  refine ⟨?_, by decide, by decide⟩
  intro u la gRest gs pos c hq hcur htype hmerge hc hgrp hfirst hdis hen hlm
  have hcv : curOpVal u = some la := by
    rw [curOpVal, hcur, hq]
  by_cases h1 : la.stop = pos
  all_goals by_cases h2 : gUnicharIsspace c = true
  all_goals by_cases h3 : u.priv.last_char_is_space = true
  all_goals
    simp [wp_undo_insert_text, wp_undo_insert_text_new, wp_undo_add_queue,
      addQueueFresh, addQueuePrepend, addQueueEvict,
      wp_undo_reset_mergeable, setCurOp, curOpVal, update_tags_range,
      hq, hcur, htype, hmerge, hen, hlm, hgrp, hfirst, hdis, h1, h2, h3, hc,
      remove_image_tags, Nat.add_sub_cancel_left]

/-- Witness for C5: inside an open transaction holding the mergeable
one-character insert "h" over `[0, 1)`, recording the insertion of 'e'
at offset 1 merges into it, giving the single operation "he". -/
theorem insert_merge_rule_witness :
    (wp_undo_insert_text
      { buf := { chars := [('h', []), ('e', [])] },
        priv := { undo_queue := [[{ type := WPUndoType.insert, start := 0, stop := 1, text := ['h'], mergeable := true }]], current_op := CurOpRef.live, group := 1 } }
      true 1 ['e']).priv.undo_queue =
      [[{ type := WPUndoType.insert, start := 0, stop := 2, text := ['h', 'e'], mergeable := true }]] := by
  have h := insert_merge_rule_and_word_granularity.1
    { buf := { chars := [('h', []), ('e', [])] },
      priv := { undo_queue := [[{ type := WPUndoType.insert, start := 0, stop := 1, text := ['h'], mergeable := true }]], current_op := CurOpRef.live, group := 1 } }
    { type := WPUndoType.insert, start := 0, stop := 1, text := ['h'], mergeable := true }
    [] [] 1 'e' rfl rfl rfl rfl (by decide) (by decide) rfl rfl rfl rfl
  rw [h]
  decide

/-- C6: a newly recorded single-character delete merges into the current
mergeable delete operation exactly when both record the same
`backspace` direction and the offsets are contiguous in that direction
(backward: the new deletion's end equals the previous operation's start;
forward: the new deletion's start equals the previous operation's end),
subject to the same whitespace-transition rule as insert merging; in
every other case a fresh delete operation is recorded. -/
theorem delete_merge_rule_directional (u : WPUndo) (la : WPUndoOperation)
    (gRest : List WPUndoOperation) (gs : List (List WPUndoOperation))
    (s : Nat) (c : Char)
    (hq : u.priv.undo_queue = (la :: gRest) :: gs)
    (hcur : u.priv.current_op = CurOpRef.live)
    (htype : la.type = WPUndoType.delete)
    (hmerge : la.mergeable = true)
    (hchar : sliceChars u.buf.chars s (s + 1) = [c])
    (hc : ¬ c = '\n')
    (hgrp : u.priv.group ≠ 0)
    (hfirst : u.priv.first_in_group = false)
    (hdis : u.priv.disable_this_group = false)
    (hen : u.priv.undo_disabled = 0)
    (hlm : u.priv.low_mem = false) :
    (wp_undo_delete_range u true s (s + 1)).priv.undo_queue =
      (let cb := decide (0 < u.buf.insertMark)
       let ws := gUnicharIsspace c = true ∨ u.priv.last_char_is_space = false
       let mtags := if cb then !togglesAnyTagAt u.buf.chars s else !togglesAnyTagAt u.buf.chars (s + 1)
       let newOp : WPUndoOperation := { type := WPUndoType.delete, start := s, stop := s + 1, text := remove_image_tags [c], backspace := cb, mergeable := mtags, tags := wp_undo_get_toggled_tags u.buf.chars s (s + 1) }
       if la.backspace = cb then
         if cb = true ∧ la.start = s + 1 ∧ ws then
           ({ la with text := [c] ++ la.text, start := s, tags := update_tags_range la.tags s la.stop, mergeable := mtags } :: gRest) :: gs
         else if cb = false ∧ la.stop = s ∧ ws then
           ({ la with text := la.text ++ [c], stop := s + 1, tags := update_tags_range la.tags la.start (s + 1), mergeable := mtags } :: gRest) :: gs
         else
           (newOp :: { la with mergeable := false } :: gRest) :: gs
       else (newOp :: la :: gRest) :: gs) := by
  have hcv : curOpVal u = some la := by
    rw [curOpVal, hcur, hq]
  by_cases hm : 0 < u.buf.insertMark
  all_goals by_cases hb : la.backspace = true
  all_goals by_cases h4 : la.start = s + 1
  all_goals by_cases h5 : la.stop = s
  all_goals by_cases h2 : gUnicharIsspace c = true
  all_goals by_cases h3 : u.priv.last_char_is_space = true
  all_goals
    simp [wp_undo_delete_range, wp_undo_delete_range_new, wp_undo_add_queue,
      addQueueFresh, addQueuePrepend, addQueueEvict,
      wp_undo_reset_mergeable, setCurOp, curOpVal, update_tags_range,
      hq, hcur, htype, hmerge, hen, hlm, hgrp, hfirst, hdis, hchar, hm, hb, h4, h5, h2, h3, hc,
      remove_image_tags, Nat.add_sub_cancel_left]

/-- Witness for C6: a second backspace deletion contiguous to the first
(new end = old start) with matching direction merges into it. -/
theorem delete_merge_rule_witness :
    (wp_undo_delete_range
      { buf := { chars := [('a', [])], insertMark := 1, selBound := 1 },
        priv := { undo_queue := [[{ type := WPUndoType.delete, start := 1, stop := 2, text := ['b'], backspace := true, mergeable := true }]], current_op := CurOpRef.live, group := 1 } }
      true 0 1).priv.undo_queue =
      [[{ type := WPUndoType.delete, start := 0, stop := 2, text := ['a', 'b'], backspace := true, mergeable := true }]] := by
  have h := delete_merge_rule_directional
    { buf := { chars := [('a', [])], insertMark := 1, selBound := 1 },
      priv := { undo_queue := [[{ type := WPUndoType.delete, start := 1, stop := 2, text := ['b'], backspace := true, mergeable := true }]], current_op := CurOpRef.live, group := 1 } }
    { type := WPUndoType.delete, start := 1, stop := 2, text := ['b'], backspace := true, mergeable := true }
    [] [] 0 'a' rfl rfl rfl rfl (by decide) (by decide) (by decide) rfl rfl rfl rfl
  rw [h]
  decide

/-- Everything the host can do to the engine (and, for completeness of
the reachable states, to the buffer).  `allocOk = false` makes the
checked allocation of the corresponding record call fail. -/
inductive EngineCmd where
  | startGroup
  | endGroup
  | freeze
  | thaw
  | insertText (allocOk : Bool) (pos : Nat) (text : List Char)
  | deleteRange (allocOk : Bool) (s e : Nat)
  | applyTag (allocOk : Bool) (s e : Nat) (tag : Option TagId) (enable : Bool)
  | selChanged (allocOk : Bool) (s e : Nat)
  | simpleJustify (allocOk : Bool) (s e : Nat) (orig_tag tag : Option TagId)
  | fmtChanged (allocOk : Bool) (rich : Bool)
  | lastLineJustify (allocOk : Bool) (oldj newj : Int)
  | undo
  | redo
  | reset
  | setLowMem (low : Bool)
  | setUndoLevel (lvl : Int)
  | bufInsert (pos : Nat) (text : List Char)
  | bufDelete (s e : Nat)
  | bufApplyTag (t : TagId) (s e : Nat)
  | bufRemoveTag (t : TagId) (s e : Nat)
deriving DecidableEq, Repr

/-- Run one command; `none` is the crash of the partial undo-level trim.
Buffer commands only mutate the host buffer. -/
def runEngineCmd (u : WPUndo) : EngineCmd → Option WPUndo
  | .startGroup => some (wp_undo_start_group u)
  | .endGroup => some (wp_undo_end_group u)
  | .freeze => some (wp_undo_freeze u)
  | .thaw => some (wp_undo_thaw u)
  | .insertText ok pos text => some (wp_undo_insert_text u ok pos text)
  | .deleteRange ok s e => some (wp_undo_delete_range u ok s e)
  | .applyTag ok s e tag enable => some (wp_undo_apply_tag u ok s e tag enable)
  | .selChanged ok s e => some (wp_undo_selection_changed u ok s e)
  | .simpleJustify ok s e o t => some (wp_undo_simple_justification u ok s e o t)
  | .fmtChanged ok rich => some (wp_undo_format_changed u ok rich)
  | .lastLineJustify ok oj nj => some (wp_undo_last_line_justify u ok oj nj)
  | .undo => some (wp_undo_undo u)
  | .redo => some (wp_undo_redo u)
  | .reset => some (wp_undo_reset u)
  | .setLowMem low => some (wp_undo_set_low_mem u low)
  | .setUndoLevel lvl => wp_undo_set_undo_level u lvl
  | .bufInsert pos text => some { u with buf := u.buf.insertAt pos text }
  | .bufDelete s e => some { u with buf := u.buf.deleteRange s e }
  | .bufApplyTag t s e => some { u with buf := u.buf.applyTag t s e }
  | .bufRemoveTag t s e => some { u with buf := u.buf.removeTag t s e }

/-- Run a command list from a state. -/
def runEngine (u : WPUndo) : List EngineCmd → Option WPUndo
  | [] => some u
  | c :: cs =>
    match runEngineCmd u c with
    | some u' => runEngine u' cs
    | none => none

/-- The mergeable-flag invariant of a stored operation: a mergeable
operation is a selection change, or an insert/delete whose accumulated
text is newline-free. -/
def OpOK (op : WPUndoOperation) : Prop :=
  op.mergeable = true →
    (op.type = WPUndoType.select ∨
      ((op.type = WPUndoType.insert ∨ op.type = WPUndoType.delete) ∧ '\n' ∉ op.text))

/-- All operations of all groups of both queues (and a dangling
`current_op` value, which `wp_undo_add_queue` can still splice into the
queue) satisfy the mergeable-flag invariant. -/
def QueuesOK (u : WPUndo) : Prop :=
  (∀ g ∈ u.priv.undo_queue, ∀ op ∈ g, OpOK op) ∧
  (∀ g ∈ u.priv.redo_queue, ∀ op ∈ g, OpOK op) ∧
  (∀ op, u.priv.current_op = CurOpRef.stale op → OpOK op)

theorem QueuesOK_of_eq {u v : WPUndo}
    (h1 : v.priv.undo_queue = u.priv.undo_queue)
    (h2 : v.priv.redo_queue = u.priv.redo_queue)
    (h3 : v.priv.current_op = u.priv.current_op)
    (h : QueuesOK u) : QueuesOK v := by
  refine ⟨?_, ?_, ?_⟩
  · rw [h1]; exact h.1
  · rw [h2]; exact h.2.1
  · intro op hop
    rw [h3] at hop
    exact h.2.2 op hop

theorem QueuesOK_send_signals {u : WPUndo} (h : QueuesOK u) :
    QueuesOK (wp_undo_send_signals u) :=
  QueuesOK_of_eq (wp_undo_send_signals_undo_queue u) (wp_undo_send_signals_redo_queue u)
    (wp_undo_send_signals_current_op u) h

theorem curOpVal_OK {u : WPUndo} (h : QueuesOK u) {op : WPUndoOperation}
    (hc : curOpVal u = some op) : OpOK op := by
  rw [curOpVal] at hc
  rcases hcur : u.priv.current_op with _ | _ | stOp
  · rw [hcur] at hc
    exact absurd hc (by simp)
  · rw [hcur] at hc
    rcases hq : u.priv.undo_queue with _ | ⟨g, gs⟩
    · rw [hq] at hc
      exact absurd hc (by simp)
    · rcases g with _ | ⟨op0, rest⟩
      · rw [hq] at hc
        exact absurd hc (by simp)
      · rw [hq] at hc
        simp only [Option.some.injEq] at hc
        subst hc
        exact h.1 _ (by rw [hq]; exact List.mem_cons_self _ _) _ (List.mem_cons_self _ _)
  · rw [hcur] at hc
    simp only [Option.some.injEq] at hc
    subst hc
    exact h.2.2 _ hcur

theorem QueuesOK_setCurOp {u : WPUndo} {op : WPUndoOperation} (h : QueuesOK u)
    (hop : OpOK op) : QueuesOK (setCurOp u op) := by
  rcases hcur : u.priv.current_op with _ | _ | stOp
  · exact QueuesOK_of_eq (by simp [setCurOp, hcur]) (by simp [setCurOp, hcur])
      (by simp [setCurOp, hcur]) h
  · rcases hq : u.priv.undo_queue with _ | ⟨g, gs⟩
    · exact QueuesOK_of_eq (by simp [setCurOp, hcur, hq]) (by simp [setCurOp, hcur])
        (by simp [setCurOp, hcur]) h
    · rcases g with _ | ⟨op0, rest⟩
      · exact QueuesOK_of_eq (by simp [setCurOp, hcur, hq]) (by simp [setCurOp, hcur])
          (by simp [setCurOp, hcur]) h
      · have hqv : (setCurOp u op).priv.undo_queue = (op :: rest) :: gs := by
          simp [setCurOp, hcur, hq]
        have hrv : (setCurOp u op).priv.redo_queue = u.priv.redo_queue := by
          simp [setCurOp, hcur]
        have hcv : (setCurOp u op).priv.current_op = u.priv.current_op := by
          simp [setCurOp, hcur]
        refine ⟨?_, ?_, ?_⟩
        · rw [hqv]
          intro g hg o ho
          rcases List.mem_cons.mp hg with rfl | hg2
          · rcases List.mem_cons.mp ho with rfl | ho2
            · exact hop
            · exact h.1 (op0 :: rest) (by rw [hq]; exact List.mem_cons_self _ _) o
                (List.mem_cons_of_mem _ ho2)
          · exact h.1 g (by rw [hq]; exact List.mem_cons_of_mem _ hg2) o ho
        · rw [hrv]
          exact h.2.1
        · intro o ho
          rw [hcv, hcur] at ho
          simp at ho
  · refine ⟨?_, ?_, ?_⟩
    · have heq : (setCurOp u op).priv.undo_queue = u.priv.undo_queue := by
        simp [setCurOp, hcur]
      rw [heq]
      exact h.1
    · have heq : (setCurOp u op).priv.redo_queue = u.priv.redo_queue := by
        simp [setCurOp, hcur]
      rw [heq]
      exact h.2.1
    · intro o ho
      have heq : (setCurOp u op).priv.current_op = CurOpRef.stale op := by
        simp [setCurOp, hcur]
      rw [heq] at ho
      simp only [CurOpRef.stale.injEq] at ho
      cases ho
      exact hop

theorem QueuesOK_reset_mergeable {u : WPUndo} (h : QueuesOK u) :
    QueuesOK (wp_undo_reset_mergeable u) := by
  rw [wp_undo_reset_mergeable]
  rcases hcv : curOpVal u with _ | op
  · exact h
  · have h2 := @QueuesOK_setCurOp u { op with mergeable := false } h
      (by intro hmm; simp at hmm)
    refine ⟨?_, ?_, ?_⟩
    · simpa using h2.1
    · simpa using h2.2.1
    · intro o ho
      simp at ho

theorem QueuesOK_addQueueFresh {u : WPUndo} (h : QueuesOK u) :
    QueuesOK (addQueueFresh u) := by
  rw [addQueueFresh]
  split
  · have h2 := QueuesOK_reset_mergeable h
    refine ⟨by simpa using h2.1, by simpa using h2.2.1, ?_⟩
    intro o ho
    simp only at ho
    exact h2.2.2 o (by simpa using ho)
  · exact h

theorem QueuesOK_addQueuePrepend {u : WPUndo} {op : WPUndoOperation}
    (h : QueuesOK u) (hop : OpOK op) : QueuesOK (addQueuePrepend u op) := by
  rw [addQueuePrepend]
  rcases hcur : u.priv.current_op with _ | _ | stOp
  · refine ⟨?_, by simpa using h.2.1, by intro o ho; simp at ho⟩
    intro g hg o ho
    simp only at hg
    rcases List.mem_cons.mp hg with rfl | hg2
    · rcases List.mem_cons.mp ho with rfl | ho2
      · exact hop
      · simp at ho2
    · exact h.1 g hg2 o ho
  · refine ⟨?_, by simpa using h.2.1, by intro o ho; simp at ho⟩
    intro g hg o ho
    rcases hq : u.priv.undo_queue with _ | ⟨g0, gs⟩
    · rw [hq] at hg
      simp only at hg
      rcases List.mem_cons.mp hg with rfl | hg2
      · rcases List.mem_cons.mp ho with rfl | ho2
        · exact hop
        · simp at ho2
      · simp at hg2
    · rw [hq] at hg
      simp only at hg
      rcases List.mem_cons.mp hg with rfl | hg2
      · rcases List.mem_cons.mp ho with rfl | ho2
        · exact hop
        · exact h.1 g0 (by rw [hq]; exact List.mem_cons_self _ _) o ho2
      · exact h.1 g (by rw [hq]; exact List.mem_cons_of_mem _ hg2) o ho
  · refine ⟨?_, by simpa using h.2.1, by intro o ho; simp at ho⟩
    intro g hg o ho
    rcases hq : u.priv.undo_queue with _ | ⟨g0, gs⟩
    · rw [hq] at hg
      simp only at hg
      rcases List.mem_cons.mp hg with rfl | hg2
      · rcases List.mem_cons.mp ho with rfl | ho2
        · exact hop
        · rcases List.mem_cons.mp ho2 with rfl | ho3
          · exact h.2.2 _ hcur
          · simp at ho3
      · simp at hg2
    · rw [hq] at hg
      simp only at hg
      rcases List.mem_cons.mp hg with rfl | hg2
      · rcases List.mem_cons.mp ho with rfl | ho2
        · exact hop
        · rcases List.mem_cons.mp ho2 with rfl | ho3
          · exact h.2.2 _ hcur
          · simp at ho3
      · exact h.1 g (by rw [hq]; exact List.mem_cons_of_mem _ hg2) o ho

theorem QueuesOK_addQueueEvict {u : WPUndo} {first : Bool} (h : QueuesOK u) :
    QueuesOK (addQueueEvict u first) := by
  rw [addQueueEvict]
  split
  · split
    · refine ⟨?_, by simpa using h.2.1, ?_⟩
      · intro g hg o ho
        simp only at hg
        exact h.1 g (List.take_subset _ _ hg) o ho
      · intro o ho
        simp only at ho
        exact h.2.2 o ho
    · exact QueuesOK_of_eq rfl rfl rfl h
  · exact h

theorem QueuesOK_emit_no_memory {u : WPUndo} (h : QueuesOK u) :
    QueuesOK (emit_no_memory u) := by
  rw [emit_no_memory]
  dsimp only
  by_cases hc : (!u.priv.first_in_group && !u.priv.disable_this_group &&
      !u.priv.undo_queue.isEmpty) = true
  · simp only [hc, if_true, if_pos]
    refine ⟨?_, ?_, ?_⟩
    · intro g hg o ho
      simp only [wp_undo_send_signals_undo_queue] at hg
      exact h.1 g (List.mem_of_mem_tail (by simpa using hg)) o ho
    · intro g hg o ho
      simp only [wp_undo_send_signals_redo_queue] at hg
      exact h.2.1 g (by simpa using hg) o ho
    · intro o ho
      simp only [wp_undo_send_signals_current_op] at ho
      rcases hcur : u.priv.current_op with _ | _ | stOp <;> rw [hcur] at ho
      · rcases hq : u.priv.undo_queue with _ | ⟨g0, gs⟩ <;> rw [hq] at ho <;> simp at ho
      · rcases hq : u.priv.undo_queue with _ | ⟨g0, gs⟩
        · rw [hq] at ho
          simp at ho
        · rcases g0 with _ | ⟨op0, rest⟩
          · rw [hq] at ho
            simp at ho
          · rw [hq] at ho
            simp only [CurOpRef.stale.injEq] at ho
            cases ho
            exact h.1 _ (by rw [hq]; exact List.mem_cons_self _ _) _ (List.mem_cons_self _ _)
      · rcases hq : u.priv.undo_queue with _ | ⟨g0, gs⟩ <;> rw [hq] at ho
        · simp only [CurOpRef.stale.injEq] at ho
          cases ho
          exact h.2.2 _ hcur
        · rcases g0 with _ | ⟨op0, rest⟩ <;> simp only [CurOpRef.stale.injEq] at ho <;>
            (cases ho; exact h.2.2 _ hcur)
  · simp only [hc]
    refine ⟨by simpa using h.1, by simpa using h.2.1, ?_⟩
    intro o ho
    simp only [Bool.false_eq_true, if_false] at ho
    exact h.2.2 o (by simpa using ho)

theorem QueuesOK_add_queue {u : WPUndo} {op0 : WPUndoOperation} (h : QueuesOK u)
    (hop : OpOK { op0 with text := remove_image_tags op0.text }) :
    QueuesOK (wp_undo_add_queue u op0) := by
  rw [wp_undo_add_queue]
  dsimp only
  split
  · exact h
  · apply QueuesOK_send_signals
    apply QueuesOK_addQueueEvict
    have h1 := QueuesOK_addQueuePrepend (QueuesOK_addQueueFresh h) hop
    refine ⟨by simpa using h1.1, by simp, ?_⟩
    intro o ho
    simp only at ho
    exact h1.2.2 o (by simpa using ho)

theorem mem_remove_image_tags {c : Char} {l : List Char} :
    c ∈ remove_image_tags l → c = ' ' ∨ c ∈ l := by
  induction l with
  | nil => intro h; simp [remove_image_tags] at h
  | cons d ds ih =>
    intro h
    rw [remove_image_tags] at h
    rcases List.mem_cons.mp h with h1 | h1
    · by_cases hd : d = objectReplacementChar
      · rw [if_pos hd] at h1
        exact Or.inl h1
      · rw [if_neg hd] at h1
        exact Or.inr (h1 ▸ List.mem_cons_self _ _)
    · rcases ih h1 with h2 | h2
      · exact Or.inl h2
      · exact Or.inr (List.mem_cons_of_mem _ h2)

/-- The insert/delete mergeability test implies the recorded text is
newline-free (it is empty or a single non-newline character). -/
theorem mergeable_text_no_newline {text : List Char}
    (h : (!(decide (text.length > 1) || decide (text.headD nulChar = '\n'))) = true) :
    '\n' ∉ text := by
  rcases text with _ | ⟨c, rest⟩
  · simp
  · rcases rest with _ | ⟨d, rest⟩
    · simp only [List.headD_cons] at h
      simp only [Bool.not_eq_true', Bool.or_eq_false_iff, decide_eq_false_iff_not] at h
      intro hmem
      simp only [List.mem_singleton] at hmem
      exact h.2 hmem.symm
    · simp at h

theorem QueuesOK_insert_text_new {u : WPUndo} {ok : Bool} {cstart cstop : Nat}
    {text : List Char} {mb isp : Bool} (h : QueuesOK u)
    (hmb : mb = true → '\n' ∉ text) :
    QueuesOK (wp_undo_insert_text_new u ok cstart cstop text mb isp) := by
  rw [wp_undo_insert_text_new]
  split
  · exact QueuesOK_emit_no_memory h
  · refine QueuesOK_add_queue ⟨h.1, h.2.1, h.2.2⟩ ?_
    intro hm
    right
    refine ⟨Or.inl rfl, ?_⟩
    intro hmem
    rcases mem_remove_image_tags hmem with h1 | h1
    · exact absurd h1 (by decide)
    · exact hmb hm h1

theorem QueuesOK_insert_text {u : WPUndo} {ok : Bool} {pos : Nat} {text : List Char}
    (h : QueuesOK u) : QueuesOK (wp_undo_insert_text u ok pos text) := by
  rw [wp_undo_insert_text]
  split
  · exact h
  · dsimp only
    split
    · rename_i la heq
      split
      · rename_i hguard
        simp only [Bool.and_eq_true, decide_eq_true_iff] at hguard
        split
        · apply QueuesOK_of_eq rfl rfl rfl
          apply QueuesOK_setCurOp h
          intro _
          right
          have hla := curOpVal_OK h heq
          have hlaOK := hla hguard.1.2
          rcases hlaOK with h1 | h1
          · rw [hguard.2] at h1
            simp at h1
          · refine ⟨Or.inl hguard.2, ?_⟩
            intro hmem
            rcases List.mem_append.mp hmem with h2 | h2
            · exact h1.2 h2
            · exact mergeable_text_no_newline
                (by simpa [Nat.add_sub_cancel_left] using hguard.1.1) h2
        · exact QueuesOK_insert_text_new
            (QueuesOK_setCurOp h (by intro hmm; simp at hmm))
            (fun hm => mergeable_text_no_newline (by simpa [Nat.add_sub_cancel_left] using hm))
      · exact QueuesOK_insert_text_new h
          (fun hm => mergeable_text_no_newline (by simpa [Nat.add_sub_cancel_left] using hm))
    · exact QueuesOK_insert_text_new h
        (fun hm => mergeable_text_no_newline (by simpa [Nat.add_sub_cancel_left] using hm))

theorem QueuesOK_delete_range_new {u : WPUndo} {s e : Nat} {ctext : List Char}
    {cb mt isp : Bool} (h : QueuesOK u) (hmt : mt = true → '\n' ∉ ctext) :
    QueuesOK (wp_undo_delete_range_new u s e ctext cb mt isp) := by
  rw [wp_undo_delete_range_new]
  refine QueuesOK_add_queue ⟨h.1, h.2.1, h.2.2⟩ ?_
  intro hm
  right
  refine ⟨Or.inr rfl, ?_⟩
  intro hmem
  rcases mem_remove_image_tags hmem with h1 | h1
  · exact absurd h1 (by decide)
  · exact hmt hm h1

/-- A passed single-character test for a deletion means the recorded
slice is newline-free. -/
theorem delete_cmerge_no_newline {cs : List BufChar} {s e : Nat}
    (hc : (!(decide (e - s > 1) || decide ((sliceChars cs s e).headD nulChar = '\n')))
      = true) :
    '\n' ∉ sliceChars cs s e := by
  rcases hsl : sliceChars cs s e with _ | ⟨c, rest⟩
  · simp
  · rcases rest with _ | ⟨d, rest⟩
    · rw [hsl] at hc
      simp only [List.headD_cons] at hc
      simp only [Bool.not_eq_true', Bool.or_eq_false_iff, decide_eq_false_iff_not] at hc
      intro hmem
      simp only [List.mem_singleton] at hmem
      exact hc.2 hmem.symm
    · rw [hsl] at hc
      have hes : e - s ≤ 1 := by
        by_contra hgt
        simp only [Bool.not_eq_true', Bool.or_eq_false_iff, decide_eq_false_iff_not] at hc
        exact hc.1 (by omega)
      have hlen : (sliceChars cs s e).length ≤ 1 := by
        rw [sliceChars, List.length_map, List.length_drop]
        have : (cs.take e).length ≤ e := by
          rw [List.length_take]
          omega
        omega
      rw [hsl] at hlen
      simp at hlen

/-- The delete mergeability flag is only true when the single-character
check passed, so the recorded slice is newline-free. -/
theorem delete_mergeableTags_no_newline {cs : List BufChar} {s e : Nat} {cb : Bool}
    (h : (if (!(decide (e - s > 1) || decide ((sliceChars cs s e).headD nulChar = '\n')))
            = true then
            (if cb = true then !togglesAnyTagAt cs s else !togglesAnyTagAt cs e)
          else false) = true) :
    '\n' ∉ sliceChars cs s e := by
  by_cases hc : (!(decide (e - s > 1) || decide ((sliceChars cs s e).headD nulChar = '\n')))
      = true
  · exact delete_cmerge_no_newline hc
  · rw [if_neg hc] at h
    simp at h

theorem QueuesOK_delete_range {u : WPUndo} {ok : Bool} {s e : Nat}
    (h : QueuesOK u) : QueuesOK (wp_undo_delete_range u ok s e) := by
  rw [wp_undo_delete_range]
  split
  · exact h
  · dsimp only
    split
    · exact QueuesOK_emit_no_memory h
    · split
      · rename_i la heq
        split
        · rename_i hguard
          simp only [Bool.and_eq_true, decide_eq_true_iff] at hguard
          split
          · rename_i hinner
            apply QueuesOK_of_eq rfl rfl rfl
            apply QueuesOK_setCurOp h
            intro hm
            right
            have hla := curOpVal_OK h heq
            have hlaOK := hla hguard.1.1.2
            rcases hlaOK with h1 | h1
            · rw [hguard.1.2] at h1
              simp at h1
            · refine ⟨Or.inr hguard.1.2, ?_⟩
              intro hmem
              rcases List.mem_append.mp hmem with h2 | h2
              · exact delete_cmerge_no_newline hguard.1.1.1 h2
              · exact h1.2 h2
          · split
            · rename_i hinner2
              apply QueuesOK_of_eq rfl rfl rfl
              apply QueuesOK_setCurOp h
              intro hm
              right
              have hla := curOpVal_OK h heq
              have hlaOK := hla hguard.1.1.2
              rcases hlaOK with h1 | h1
              · rw [hguard.1.2] at h1
                simp at h1
              · refine ⟨Or.inr hguard.1.2, ?_⟩
                intro hmem
                rcases List.mem_append.mp hmem with h2 | h2
                · exact h1.2 h2
                · exact delete_cmerge_no_newline hguard.1.1.1 h2
            · exact QueuesOK_delete_range_new
                (QueuesOK_setCurOp h (by intro hmm; simp at hmm))
                (fun hm => by
                  apply @delete_mergeableTags_no_newline _ _ _ (decide (0 < u.buf.insertMark))
                  simpa using hm)
        · exact QueuesOK_delete_range_new h
            (fun hm => by
              apply @delete_mergeableTags_no_newline _ _ _ (decide (0 < u.buf.insertMark))
              simpa using hm)
      · exact QueuesOK_delete_range_new h
          (fun hm => by
            apply @delete_mergeableTags_no_newline _ _ _ (decide (0 < u.buf.insertMark))
            simpa using hm)

theorem QueuesOK_apply_tag {u : WPUndo} {ok : Bool} {s e : Nat}
    {tag : Option TagId} {enable : Bool} (h : QueuesOK u) :
    QueuesOK (wp_undo_apply_tag u ok s e tag enable) := by
  rw [wp_undo_apply_tag.eq_def]
  split
  · exact h
  · split
    · rename_i op t heq
      split
      · apply QueuesOK_setCurOp h
        intro hm
        have hop := (curOpVal_OK h heq) hm
        rcases hop with h1 | h1
        · exact Or.inl h1
        · exact Or.inr h1
      · split
        · apply QueuesOK_setCurOp h
          intro hm
          have hop := (curOpVal_OK h heq) hm
          rcases hop with h1 | h1
          · exact Or.inl h1
          · exact Or.inr h1
        · exact h
      · apply QueuesOK_setCurOp h
        intro hm
        have hop := (curOpVal_OK h heq) hm
        rcases hop with h1 | h1
        · exact Or.inl h1
        · exact Or.inr h1
      · exact h
    · split
      · exact QueuesOK_emit_no_memory h
      · apply QueuesOK_add_queue h
        intro hm
        simp at hm
    · exact h

theorem QueuesOK_selection_changed_new {u : WPUndo} {ok : Bool} {istart iend : Nat}
    (h : QueuesOK u) :
    QueuesOK (wp_undo_selection_changed_new u ok istart iend) := by
  rw [wp_undo_selection_changed_new]
  split
  · exact h
  · split
    · exact QueuesOK_emit_no_memory h
    · apply QueuesOK_add_queue h
      intro _
      exact Or.inl rfl

theorem QueuesOK_selection_changed {u : WPUndo} {ok : Bool} {istart iend : Nat}
    (h : QueuesOK u) : QueuesOK (wp_undo_selection_changed u ok istart iend) := by
  rw [wp_undo_selection_changed]
  split
  · exact h
  · split
    · rename_i op heq
      split
      · rename_i htype
        split
        · apply QueuesOK_setCurOp h
          intro _
          exact Or.inl (by simpa using htype)
        · apply QueuesOK_selection_changed_new
          exact QueuesOK_setCurOp h (by intro hmm; simp at hmm)
      · exact QueuesOK_selection_changed_new h
    · exact QueuesOK_selection_changed_new h

theorem QueuesOK_simple_justification {u : WPUndo} {ok : Bool} {s e : Nat}
    {ot t : Option TagId} (h : QueuesOK u) :
    QueuesOK (wp_undo_simple_justification u ok s e ot t) := by
  rw [wp_undo_simple_justification]
  split
  · exact h
  · split
    · exact QueuesOK_emit_no_memory h
    · apply QueuesOK_add_queue h
      intro hm
      simp at hm

theorem QueuesOK_format_changed {u : WPUndo} {ok rich : Bool} (h : QueuesOK u) :
    QueuesOK (wp_undo_format_changed u ok rich) := by
  rw [wp_undo_format_changed]
  split
  · exact h
  · split
    · exact QueuesOK_emit_no_memory h
    · apply QueuesOK_add_queue h
      intro hm
      simp at hm

theorem QueuesOK_last_line_justify {u : WPUndo} {ok : Bool} {oj nj : Int}
    (h : QueuesOK u) : QueuesOK (wp_undo_last_line_justify u ok oj nj) := by
  rw [wp_undo_last_line_justify]
  split
  · exact h
  · split
    · exact QueuesOK_emit_no_memory h
    · apply QueuesOK_add_queue h
      intro hm
      simp at hm

theorem QueuesOK_undoTrailingReset {u : WPUndo} (h : QueuesOK u) :
    QueuesOK (undoTrailingReset u) := by
  rw [undoTrailingReset]
  rcases hcur : u.priv.current_op with _ | _ | stOp
  · exact h
  · refine ⟨by simpa using h.1, ?_, by intro o ho; simp at ho⟩
    intro g hg op hop
    simp only at hg
    rcases hr : u.priv.redo_queue with _ | ⟨g1, gs1⟩
    · rw [hr] at hg
      simp at hg
    · rcases g1 with _ | ⟨op1, rest1⟩
      · rw [hr] at hg
        exact h.2.1 g (by rw [hr]; exact hg) op hop
      · rw [hr] at hg
        rcases List.mem_cons.mp hg with rfl | hg1
        · rcases List.mem_cons.mp hop with rfl | hop1
          · intro hmm
            simp at hmm
          · exact h.2.1 (op1 :: rest1) (by rw [hr]; exact List.mem_cons_self _ _) op
              (List.mem_cons_of_mem _ hop1)
        · exact h.2.1 g (by rw [hr]; exact List.mem_cons_of_mem _ hg1) op hop
  · refine ⟨by simpa using h.1, by simpa using h.2.1, ?_⟩
    intro o ho
    simp at ho

theorem QueuesOK_undo {u : WPUndo} (h : QueuesOK u) : QueuesOK (wp_undo_undo u) := by
  rw [wp_undo_undo]
  split
  · exact h
  · split
    · exact h
    · rename_i g gs hq
      apply QueuesOK_send_signals
      apply QueuesOK_undoTrailingReset
      have hTail : ∀ g0 ∈ gs, ∀ op ∈ g0, OpOK op := by
        intro g0 hg0
        exact h.1 g0 (by rw [hq]; exact List.mem_cons_of_mem _ hg0)
      have hRedoG : ∀ g0 ∈ g :: u.priv.redo_queue, ∀ op ∈ g0, OpOK op := by
        intro g0 hg0
        rcases List.mem_cons.mp hg0 with rfl | hg1
        · exact h.1 _ (by rw [hq]; exact List.mem_cons_self _ _)
        · exact h.2.1 g0 hg1
      split
      · exact ⟨hTail, hRedoG, fun o ho => h.2.2 o ho⟩
      · exact ⟨hTail, hRedoG, fun o ho => h.2.2 o ho⟩

theorem QueuesOK_redo {u : WPUndo} (h : QueuesOK u) : QueuesOK (wp_undo_redo u) := by
  rw [wp_undo_redo]
  split
  · exact h
  · split
    · exact h
    · rename_i g gs hq
      apply QueuesOK_send_signals
      apply QueuesOK_reset_mergeable
      have hTail : ∀ g0 ∈ gs, ∀ op ∈ g0, OpOK op := by
        intro g0 hg0
        exact h.2.1 g0 (by rw [hq]; exact List.mem_cons_of_mem _ hg0)
      have hHead : ∀ op ∈ g, OpOK op :=
        h.2.1 g (by rw [hq]; exact List.mem_cons_self _ _)
      rcases g with _ | ⟨op1, rest1⟩
      · have hNewUndo : ∀ g0 ∈ ([] : List WPUndoOperation) :: u.priv.undo_queue,
            ∀ op ∈ g0, OpOK op := by
          intro g0 hg0
          rcases List.mem_cons.mp hg0 with rfl | hg1
          · intro op hop
            simp at hop
          · exact h.1 g0 hg1
        split
        · exact ⟨hNewUndo, hTail, fun o ho => h.2.2 o ho⟩
        · exact ⟨hNewUndo, hTail, fun o ho => h.2.2 o ho⟩
      · have hNewUndo : ∀ g0 ∈ [op1] :: u.priv.undo_queue, ∀ op ∈ g0, OpOK op := by
          intro g0 hg0
          rcases List.mem_cons.mp hg0 with rfl | hg1
          · intro op hop
            simp only [List.mem_singleton] at hop
            cases hop
            exact hHead _ (List.mem_cons_self _ _)
          · exact h.1 g0 hg1
        split
        · exact ⟨hNewUndo, hTail, fun o ho => by simp [wp_undo_thaw] at ho⟩
        · exact ⟨hNewUndo, hTail, fun o ho => by simp [wp_undo_thaw] at ho⟩

theorem QueuesOK_reset {u : WPUndo} (h : QueuesOK u) : QueuesOK (wp_undo_reset u) := by
  rw [wp_undo_reset]
  apply QueuesOK_send_signals
  have h2 := QueuesOK_reset_mergeable h
  refine ⟨?_, ?_, ?_⟩
  · intro g hg
    simp at hg
  · intro g hg
    simp at hg
  · intro o ho
    exact h2.2.2 o ho

theorem QueuesOK_set_low_mem {u : WPUndo} {low : Bool} (h : QueuesOK u) :
    QueuesOK (wp_undo_set_low_mem u low) := by
  rw [wp_undo_set_low_mem]
  split
  · exact QueuesOK_reset ⟨h.1, h.2.1, fun o ho => h.2.2 o ho⟩
  · exact ⟨h.1, h.2.1, fun o ho => h.2.2 o ho⟩

theorem QueuesOK_set_undo_level {u : WPUndo} {lvl : Int} {v : WPUndo}
    (h : QueuesOK u) (hv : wp_undo_set_undo_level u lvl = some v) : QueuesOK v := by
  rw [wp_undo_set_undo_level] at hv
  dsimp only at hv
  split at hv
  · split at hv
    · rename_i hsz
      rw [if_neg (by omega)] at hv
      cases hv
      apply QueuesOK_send_signals
      refine ⟨fun g hg => h.1 g hg, ?_, fun o ho => h.2.2 o ho⟩
      intro g hg op hop
      exact h.2.1 g (List.take_subset _ _ hg) op hop
    · split at hv
      · split at hv
        · exact absurd hv (by simp)
        · cases hv
          apply QueuesOK_send_signals
          refine ⟨by intro g hg; simp at hg, fun g hg => h.2.1 g (by simpa using hg), ?_⟩
          intro o ho
          simp only at ho
          rcases hcur : u.priv.current_op with _ | _ | stOp <;> rw [hcur] at ho
          · rcases hq : u.priv.undo_queue with _ | ⟨g0, gs⟩ <;> rw [hq] at ho <;> simp at ho
          · rcases hq : u.priv.undo_queue with _ | ⟨g0, gs⟩
            · rw [hq] at ho
              simp at ho
            · rcases g0 with _ | ⟨op0, rest⟩
              · rw [hq] at ho
                simp at ho
              · rw [hq] at ho
                simp only [CurOpRef.stale.injEq] at ho
                cases ho
                exact h.1 _ (by rw [hq]; exact List.mem_cons_self _ _) _ (List.mem_cons_self _ _)
          · rcases hq : u.priv.undo_queue with _ | ⟨g0, gs⟩ <;> rw [hq] at ho
            · simp only [CurOpRef.stale.injEq] at ho
              cases ho
              exact h.2.2 _ hcur
            · rcases g0 with _ | ⟨op0, rest⟩ <;> simp only [CurOpRef.stale.injEq] at ho <;>
                (cases ho; exact h.2.2 _ hcur)
      · cases hv
        apply QueuesOK_send_signals
        exact ⟨h.1, fun g hg => h.2.1 g (by simpa using hg), fun o ho => h.2.2 o ho⟩
  · cases hv
    apply QueuesOK_send_signals
    exact ⟨h.1, h.2.1, fun o ho => h.2.2 o ho⟩

theorem QueuesOK_runEngineCmd {u v : WPUndo} {c : EngineCmd} (h : QueuesOK u)
    (hv : runEngineCmd u c = some v) : QueuesOK v := by
  cases c <;> simp only [runEngineCmd] at hv
  case startGroup =>
    cases hv
    rw [wp_undo_start_group]
    split
    · exact ⟨h.1, h.2.1, fun o ho => h.2.2 o ho⟩
    · exact ⟨h.1, h.2.1, fun o ho => h.2.2 o ho⟩
  case endGroup =>
    cases hv
    rw [wp_undo_end_group]
    split
    · exact ⟨h.1, h.2.1, fun o ho => h.2.2 o ho⟩
    · exact ⟨h.1, h.2.1, fun o ho => h.2.2 o ho⟩
  case freeze =>
    cases hv
    exact ⟨h.1, h.2.1, fun o ho => h.2.2 o ho⟩
  case thaw =>
    cases hv
    exact ⟨h.1, h.2.1, fun o ho => h.2.2 o ho⟩
  case insertText =>
    cases hv
    exact QueuesOK_insert_text h
  case deleteRange =>
    cases hv
    exact QueuesOK_delete_range h
  case applyTag =>
    cases hv
    exact QueuesOK_apply_tag h
  case selChanged =>
    cases hv
    exact QueuesOK_selection_changed h
  case simpleJustify =>
    cases hv
    exact QueuesOK_simple_justification h
  case fmtChanged =>
    cases hv
    exact QueuesOK_format_changed h
  case lastLineJustify =>
    cases hv
    exact QueuesOK_last_line_justify h
  case undo =>
    cases hv
    exact QueuesOK_undo h
  case redo =>
    cases hv
    exact QueuesOK_redo h
  case reset =>
    cases hv
    exact QueuesOK_reset h
  case setLowMem =>
    cases hv
    exact QueuesOK_set_low_mem h
  case setUndoLevel =>
    exact QueuesOK_set_undo_level h hv
  case bufInsert =>
    cases hv
    exact ⟨h.1, h.2.1, fun o ho => h.2.2 o ho⟩
  case bufDelete =>
    cases hv
    exact ⟨h.1, h.2.1, fun o ho => h.2.2 o ho⟩
  case bufApplyTag =>
    cases hv
    exact ⟨h.1, h.2.1, fun o ho => h.2.2 o ho⟩
  case bufRemoveTag =>
    cases hv
    exact ⟨h.1, h.2.1, fun o ho => h.2.2 o ho⟩

theorem QueuesOK_runEngine {u v : WPUndo} {cmds : List EngineCmd} (h : QueuesOK u)
    (hv : runEngine u cmds = some v) : QueuesOK v := by
  induction cmds generalizing u with
  | nil =>
    rw [runEngine] at hv
    cases hv
    exact h
  | cons c cs ih =>
    rw [runEngine] at hv
    rcases hc : runEngineCmd u c with _ | w
    · rw [hc] at hv
      simp at hv
    · rw [hc] at hv
      exact ih (QueuesOK_runEngineCmd h hc) hv

/-- Counterexample to C7 as stated: a selection change is stored with
`mergeable = true` although it is no text mutation at all, and after
in-group merging the stored "hello" insert still has `mergeable = true`
with five characters of text. -/
theorem mergeable_single_char_counterexample :
    (wp_undo_selection_changed (wp_undo_start_group
        (wp_undo_new { chars := [('a', []), ('b', [])] })) true 0 2).priv.undo_queue =
      [[{ type := WPUndoType.select, sel_start := 0, sel_end := 2, mergeable := true }]] ∧
    helloScenario.priv.undo_queue =
      [[{ type := WPUndoType.insert, start := 0, stop := 5,
          text := ['h', 'e', 'l', 'l', 'o'], mergeable := true }]] := by
  constructor
  · decide
  · decide

/-- C7, amended: every operation ever stored with `mergeable = true` in
either queue is a selection change or an insert/delete whose accumulated
text contains no newline; a freshly created (unmerged) insert is marked
mergeable exactly when its text has at most one character and does not
start with a newline — merging may later extend the text of a mergeable
operation beyond one character. -/
theorem mergeable_flag_policy :
    (∀ (b : TextBuffer) (cmds : List EngineCmd) (v : WPUndo),
      runEngine (wp_undo_new b) cmds = some v →
      (∀ g ∈ v.priv.undo_queue, ∀ op ∈ g, op.mergeable = true →
        (op.type = WPUndoType.select ∨
          ((op.type = WPUndoType.insert ∨ op.type = WPUndoType.delete) ∧
            '\n' ∉ op.text))) ∧
      (∀ g ∈ v.priv.redo_queue, ∀ op ∈ g, op.mergeable = true →
        (op.type = WPUndoType.select ∨
          ((op.type = WPUndoType.insert ∨ op.type = WPUndoType.delete) ∧
            '\n' ∉ op.text)))) ∧
    (∀ (u : WPUndo) (pos : Nat) (text : List Char),
      u.priv.current_op = CurOpRef.null →
      u.priv.group ≠ 0 →
      u.priv.first_in_group = false →
      u.priv.disable_this_group = false →
      u.priv.undo_disabled = 0 →
      u.priv.low_mem = false →
      (wp_undo_insert_text u true pos text).priv.undo_queue =
        [{ type := WPUndoType.insert, start := pos, stop := pos + text.length,
           text := remove_image_tags text,
           mergeable := !(decide (text.length > 1) || decide (text.headD nulChar = '\n')) }]
          :: u.priv.undo_queue) := by
  constructor
  · intro b cmds v hv
    have hinit : QueuesOK (wp_undo_new b) := by
      refine ⟨?_, ?_, ?_⟩
      · intro g hg
        simp [wp_undo_new] at hg
      · intro g hg
        simp [wp_undo_new] at hg
      · intro o ho
        simp [wp_undo_new] at ho
    have h := QueuesOK_runEngine hinit hv
    exact ⟨h.1, h.2.1⟩
  · intro u pos text hcur hgrp hfirst hdis hen hlm
    have hcv : curOpVal u = none := by
      rw [curOpVal, hcur]
    simp [wp_undo_insert_text, wp_undo_insert_text_new, wp_undo_add_queue,
      addQueueFresh, addQueuePrepend, addQueueEvict, wp_undo_reset_mergeable,
      setCurOp, hcv, hcur, hen, hlm, hgrp, hfirst, hdis, Nat.add_sub_cancel_left]

/-- Witness for the amended C7 statement: the invariant holds for the
states reached by a small concrete run, and a fresh two-character insert
is created non-mergeable (while a one-character one is mergeable). -/
theorem mergeable_flag_policy_witness :
    (∀ g ∈ (wp_undo_selection_changed (wp_undo_start_group
        (wp_undo_new { chars := [('a', []), ('b', [])] })) true 0 2).priv.undo_queue,
      ∀ op ∈ g, op.mergeable = true →
        (op.type = WPUndoType.select ∨
          ((op.type = WPUndoType.insert ∨ op.type = WPUndoType.delete) ∧
            '\n' ∉ op.text))) ∧
    (wp_undo_insert_text
      { buf := { chars := [] },
        priv := { undo_queue := [], current_op := CurOpRef.null, group := 1 } }
      true 0 ['a', 'b']).priv.undo_queue =
      [[{ type := WPUndoType.insert, start := 0, stop := 2, text := ['a', 'b'],
          mergeable := false }]] := by
  constructor
  · have h := (mergeable_flag_policy.1 { chars := [('a', []), ('b', [])] }
      [EngineCmd.startGroup, EngineCmd.selChanged true 0 2]
      (wp_undo_selection_changed (wp_undo_start_group
        (wp_undo_new { chars := [('a', []), ('b', [])] })) true 0 2) rfl).1
    exact h
  · have h := mergeable_flag_policy.2
      { buf := { chars := [] },
        priv := { undo_queue := [], current_op := CurOpRef.null, group := 1 } }
      0 ['a', 'b'] rfl (by decide) rfl rfl rfl rfl
    rw [h]
    decide

theorem objectReplacement_not_mem_remove_image_tags (l : List Char) :
    objectReplacementChar ∉ remove_image_tags l := by
  induction l with
  | nil => simp [remove_image_tags]
  | cons c cs ih =>
    rw [remove_image_tags]
    intro h
    rcases List.mem_cons.mp h with h1 | h1
    · by_cases hc : c = objectReplacementChar
      · rw [if_pos hc] at h1
        exact absurd h1 (by decide)
      · rw [if_neg hc] at h1
        exact hc h1.symm
    · exact ih h1

theorem remove_image_tags_length (l : List Char) :
    (remove_image_tags l).length = l.length := by
  induction l with
  | nil => rfl
  | cons c cs ih => rw [remove_image_tags, List.length_cons, List.length_cons, ih]

theorem setCurOp_max (u : WPUndo) (op : WPUndoOperation) :
    (setCurOp u op).priv.max_undo_level = u.priv.max_undo_level := by
  rw [setCurOp.eq_def]
  split
  · split <;> rfl
  · rfl
  · rfl

theorem addQueueFresh_max (u : WPUndo) :
    (addQueueFresh u).priv.max_undo_level = u.priv.max_undo_level := by
  rw [addQueueFresh]
  split
  · rw [wp_undo_reset_mergeable.eq_def]
    split
    · rfl
    · simp [setCurOp_max]
  · rfl

theorem addQueuePrepend_shape (u : WPUndo) (op : WPUndoOperation) :
    ∃ rest gs, (addQueuePrepend u op).priv.undo_queue = (op :: rest) :: gs := by
  rw [addQueuePrepend]
  rcases u.priv.current_op with _ | _ | stOp
  · exact ⟨[], u.priv.undo_queue, rfl⟩
  · rcases hq : u.priv.undo_queue with _ | ⟨g, gs⟩
    · exact ⟨[], [], rfl⟩
    · exact ⟨g, gs, rfl⟩
  · rcases hq : u.priv.undo_queue with _ | ⟨g, gs⟩
    · exact ⟨[stOp], [], rfl⟩
    · exact ⟨[stOp], gs, rfl⟩

theorem addQueuePrepend_max (u : WPUndo) (op : WPUndoOperation) :
    (addQueuePrepend u op).priv.max_undo_level = u.priv.max_undo_level := by
  rw [addQueuePrepend]
  rcases u.priv.current_op with _ | _ | stOp
  · rfl
  · rcases u.priv.undo_queue with _ | ⟨g, gs⟩ <;> rfl
  · rcases u.priv.undo_queue with _ | ⟨g, gs⟩ <;> rfl

theorem addQueueEvict_head (u : WPUndo) (f : Bool) (g : List WPUndoOperation)
    (gs : List (List WPUndoOperation)) (hq : u.priv.undo_queue = g :: gs)
    (hmax : 1 ≤ u.priv.max_undo_level) :
    ∃ gs2, (addQueueEvict u f).priv.undo_queue = g :: gs2 := by
  rw [addQueueEvict]
  split
  · split
    · rcases hm : u.priv.max_undo_level with _ | m
      · omega
      · exact ⟨gs.take m, by simp [hq, hm, List.take_succ_cons]⟩
    · exact ⟨gs, hq⟩
  · exact ⟨gs, hq⟩

/-- When the group is not disabled and at least one undo level is
configured, `wp_undo_add_queue` stores the operation with its text
filtered through `remove_image_tags` as the head operation of the head
group of the undo queue. -/
theorem add_queue_stores_filtered_text (u : WPUndo) (op : WPUndoOperation)
    (hdis : u.priv.disable_this_group = false)
    (hmax : 1 ≤ u.priv.max_undo_level) :
    ∃ rest gs, (wp_undo_add_queue u op).priv.undo_queue =
      ({ op with text := remove_image_tags op.text } :: rest) :: gs := by
  rw [wp_undo_add_queue]
  dsimp only
  rw [if_neg (by simp [hdis])]
  obtain ⟨rest, gs, hshape⟩ :=
    addQueuePrepend_shape (addQueueFresh u) { op with text := remove_image_tags op.text }
  set u2 := addQueuePrepend (addQueueFresh u) { op with text := remove_image_tags op.text }
    with hu2
  set u3 : WPUndo := { u2 with priv := { u2.priv with redo_queue := [] } } with hu3
  have hq3 : u3.priv.undo_queue = ({ op with text := remove_image_tags op.text } :: rest) :: gs :=
    hshape
  have hm3 : 1 ≤ u3.priv.max_undo_level := by
    have : u3.priv.max_undo_level = u.priv.max_undo_level := by
      show u2.priv.max_undo_level = u.priv.max_undo_level
      rw [hu2, addQueuePrepend_max, addQueueFresh_max]
    omega
  obtain ⟨gs2, hev⟩ := addQueueEvict_head u3 u.priv.first_in_group _ _ hq3 hm3
  exact ⟨rest, gs2, by rw [wp_undo_send_signals_undo_queue, hev]⟩

/-- The state reached by typing 'a' and then an object-replacement
character U+FFFC, one insertion at a time, inside one transaction on an
empty buffer: the second insertion merges into the first. -/
def fffcMergeScenario : WPUndo :=
  runTxs (wp_undo_new { chars := [] })
    [[TxCmd.ins 0 ['a'], TxCmd.ins 1 [objectReplacementChar]]]

/-- The state reached by deleting the single object-replacement
character of a one-character buffer inside one transaction. -/
def fffcDeleteScenario : WPUndo :=
  runTxs (wp_undo_new { chars := [(objectReplacementChar, [])] }) [[TxCmd.del 0 1]]

/-- C10 counterexample: after merging a U+FFFC insertion into the current
mergeable insert, the stored operation text contains U+FFFC — the merge
path concatenates the raw text without running `remove_image_tags`, so
operation text held in the undo queue can contain U+FFFC. -/
theorem image_filter_merge_counterexample :
    ∃ g ∈ fffcMergeScenario.priv.undo_queue, ∃ op ∈ g,
      objectReplacementChar ∈ op.text := by decide

/-- C10 (amended): `remove_image_tags` replaces each U+FFFC by one ASCII
space (so its output never contains U+FFFC and keeps the length), and
whenever `wp_undo_add_queue` stores a new operation (group not disabled,
at least one undo level) the head operation of the head undo group
carries the filtered text; consequently undoing the deletion of an
embedded-image character re-inserts a plain space.  Only the merge
paths, which splice raw text into an already-stored operation, escape
the filter. -/
theorem image_filter_on_store_amended (u : WPUndo) (op : WPUndoOperation)
    (l : List Char)
    (hdis : u.priv.disable_this_group = false)
    (hmax : 1 ≤ u.priv.max_undo_level) :
    objectReplacementChar ∉ remove_image_tags l ∧
    (remove_image_tags l).length = l.length ∧
    (∃ rest gs, (wp_undo_add_queue u op).priv.undo_queue =
      ({ op with text := remove_image_tags op.text } :: rest) :: gs) ∧
    (wp_undo_undo fffcDeleteScenario).buf.text = [' '] :=
  ⟨objectReplacement_not_mem_remove_image_tags l, remove_image_tags_length l,
    add_queue_stores_filtered_text u op hdis hmax, by decide⟩

/-- A concrete insert operation carrying a U+FFFC payload. -/
def fffcOp : WPUndoOperation :=
  { type := .insert, stop := 1, text := [objectReplacementChar] }

theorem image_filter_on_store_witness :
    (wp_undo_new { chars := [] }).priv.disable_this_group = false ∧
    1 ≤ (wp_undo_new { chars := [] }).priv.max_undo_level ∧
    (objectReplacementChar ∉ remove_image_tags [objectReplacementChar] ∧
     (remove_image_tags [objectReplacementChar]).length = [objectReplacementChar].length ∧
     (∃ rest gs,
        (wp_undo_add_queue (wp_undo_new { chars := [] }) fffcOp).priv.undo_queue =
          ({ fffcOp with text := remove_image_tags fffcOp.text } :: rest) :: gs) ∧
     (wp_undo_undo fffcDeleteScenario).buf.text = [' ']) :=
  ⟨by decide, by decide,
    image_filter_on_store_amended (wp_undo_new { chars := [] }) fffcOp [objectReplacementChar]
      (by decide) (by decide)⟩

theorem send_signals_events (u : WPUndo) :
    ∃ extra, (wp_undo_send_signals u).priv.events = u.priv.events ++ extra := by
  rw [wp_undo_send_signals]
  dsimp only
  split
  · split
    · exact ⟨_, List.append_assoc _ _ _⟩
    · exact ⟨_, rfl⟩
  · split
    · exact ⟨_, rfl⟩
    · exact ⟨[], (List.append_nil _).symm⟩

/-- The state reached by opening a transaction on a fresh engine and
recording one insertion: the group is open, one operation has already
been committed, and the group is not disabled. -/
def c9State : WPUndo :=
  execTxCmd (wp_undo_start_group (wp_undo_new { chars := [] })) (TxCmd.ins 0 ['a'])

/-- C9: when an allocation fails inside an open group that already
committed an operation, `emit_no_memory` logs the out-of-memory signal,
frees the whole head group of the undo queue (not just the failed
operation), and sets `disable_this_group`; while that flag is set
`wp_undo_add_queue` drops every operation unchanged, and closing the
outermost group clears the flag. -/
theorem no_memory_group_discard (u : WPUndo) (g : List WPUndoOperation)
    (rest : List (List WPUndoOperation))
    (_hopen : 1 ≤ u.priv.group)
    (hfirst : u.priv.first_in_group = false)
    (hdis : u.priv.disable_this_group = false)
    (hq : u.priv.undo_queue = g :: rest) :
    (∃ extra, (emit_no_memory u).priv.events =
        (u.priv.events ++ [WPSignal.no_memory]) ++ extra) ∧
    (emit_no_memory u).priv.undo_queue = rest ∧
    (emit_no_memory u).priv.disable_this_group = true ∧
    (∀ v : WPUndo, v.priv.disable_this_group = true →
      ∀ op, wp_undo_add_queue v op = v) ∧
    (∀ t : WPUndo, t.priv.group = 1 →
      (wp_undo_end_group t).priv.disable_this_group = false) := by
  have hguard : (!({ u with priv :=
        { u.priv with events := u.priv.events ++ [WPSignal.no_memory] } } :
          WPUndo).priv.first_in_group &&
      !({ u with priv :=
        { u.priv with events := u.priv.events ++ [WPSignal.no_memory] } } :
          WPUndo).priv.disable_this_group &&
      !({ u with priv :=
        { u.priv with events := u.priv.events ++ [WPSignal.no_memory] } } :
          WPUndo).priv.undo_queue.isEmpty) = true := by
    simp [hfirst, hdis, hq]
  refine ⟨?_, ?_, ?_, ?_, ?_⟩
  · rw [emit_no_memory]
    dsimp only
    rw [if_pos hguard]
    obtain ⟨extra, hex⟩ := send_signals_events
      { u with priv :=
          { u.priv with
            events := u.priv.events ++ [WPSignal.no_memory]
            undo_queue := ({ u with priv :=
              { u.priv with events := u.priv.events ++ [WPSignal.no_memory] } } :
                WPUndo).priv.undo_queue.tail
            current_op :=
              match ({ u with priv :=
                { u.priv with events := u.priv.events ++ [WPSignal.no_memory] } } :
                  WPUndo).priv.current_op,
                ({ u with priv :=
                  { u.priv with events := u.priv.events ++ [WPSignal.no_memory] } } :
                    WPUndo).priv.undo_queue with
              | .live, (op :: _) :: _ => CurOpRef.stale op
              | c, _ => c } }
    exact ⟨extra, hex⟩
  · rw [emit_no_memory]
    dsimp only
    rw [if_pos hguard]
    show (wp_undo_send_signals _).priv.undo_queue = rest
    rw [wp_undo_send_signals_undo_queue]
    simp [hq]
  · rfl
  · intro v hv op
    rw [wp_undo_add_queue]
    dsimp only
    rw [if_pos hv]
  · intro t ht
    rw [wp_undo_end_group]
    dsimp only
    rw [ht]
    rfl

theorem no_memory_group_discard_witness :
    (1 ≤ c9State.priv.group ∧ c9State.priv.first_in_group = false ∧
     c9State.priv.disable_this_group = false ∧
     c9State.priv.undo_queue =
       c9State.priv.undo_queue.headD [] :: c9State.priv.undo_queue.tail) ∧
    ((∃ extra, (emit_no_memory c9State).priv.events =
        (c9State.priv.events ++ [WPSignal.no_memory]) ++ extra) ∧
     (emit_no_memory c9State).priv.undo_queue = c9State.priv.undo_queue.tail ∧
     (emit_no_memory c9State).priv.disable_this_group = true ∧
     (∀ v : WPUndo, v.priv.disable_this_group = true →
       ∀ op, wp_undo_add_queue v op = v) ∧
     (∀ t : WPUndo, t.priv.group = 1 →
       (wp_undo_end_group t).priv.disable_this_group = false)) :=
  ⟨⟨by decide, by decide, by decide, by decide⟩,
    no_memory_group_discard c9State (c9State.priv.undo_queue.headD [])
      c9State.priv.undo_queue.tail (by decide) (by decide) (by decide) (by decide)⟩

/-- Eight one-shot transactions, each inserting one character at offset
zero in its own group. -/
def c3Txs : List (List TxCmd) :=
  List.replicate 8 [TxCmd.ins 0 ['a']]

set_option maxRecDepth 4000 in
/-- C3: raising the bound to 10, recording eight one-operation
transactions (eight undo groups, empty redo queue) and then lowering the
bound to 5 forces a partial trim of the undo queue; the source walks
`priv->redo_queue` — just emptied — instead of `priv->undo_queue` to
find the trim point, so `g_slist_nth` returns NULL and `tmp->next`
dereferences it.  The embedding returns `none` on that path. -/
theorem undo_level_trim_crash :
    (wp_undo_set_undo_level (wp_undo_new { chars := [] }) 10).map
      (fun u => wp_undo_set_undo_level (runTxs u c3Txs) 5) = some none := by decide

/-- The head undo group exists and is non-empty (the shape `current_op`
aliases when live). -/
def curLiveShape (u : WPUndo) : Prop :=
  ∃ op g gs, u.priv.undo_queue = (op :: g) :: gs

/-- Between transactions in the capacity scenario: no group is open,
recording is enabled, the queue-length counter is accurate, the bound is
the default 5, and `current_op` is clear or aliases the head operation. -/
def SInv (u : WPUndo) : Prop :=
  u.priv.group = 0 ∧
  u.priv.undo_disabled = 0 ∧
  u.priv.low_mem = false ∧
  u.priv.undo_queue_len = u.priv.undo_queue.length ∧
  u.priv.max_undo_level = 5 ∧
  (u.priv.current_op = CurOpRef.null ∨
    (u.priv.current_op = CurOpRef.live ∧ curLiveShape u))

/-- Inside a transaction after its first recorded operation. -/
def TxInv (u : WPUndo) : Prop :=
  u.priv.group = 1 ∧
  u.priv.first_in_group = false ∧
  u.priv.disable_this_group = false ∧
  u.priv.undo_disabled = 0 ∧
  u.priv.low_mem = false ∧
  u.priv.undo_queue_len = u.priv.undo_queue.length ∧
  u.priv.max_undo_level = 5 ∧
  u.priv.current_op = CurOpRef.live ∧
  curLiveShape u

/-- A host mutation whose report can never merge into the previous
transaction's still-aliased operation: a multi-character insertion, a
multi-character deletion, or a span toggle (which always records). -/
def cmdNonMerging : TxCmd → Bool
  | .ins _ text => decide (text.length > 1)
  | .del s e => decide (e - s > 1)
  | .spanToggle _ _ _ => true

/-- A transaction that certainly opens its own fresh undo group. -/
def txNonMerging : List TxCmd → Bool
  | [] => false
  | c :: _ => cmdNonMerging c

theorem TxInv_setCurOp_mid {u : WPUndo} (op : WPUndoOperation) (h : TxInv u) :
    TxInv (setCurOp u op) ∧
    (setCurOp u op).priv.undo_queue.length = u.priv.undo_queue.length := by
  obtain ⟨h1, h2, h3, h4, h5, h6, h7, hcur, o, g, gs, hq⟩ := h
  rw [setCurOp.eq_def, hcur, hq]
  dsimp only
  refine ⟨⟨h1, h2, h3, h4, h5, ?_, h7, hcur, op, g, gs, rfl⟩, ?_⟩
  · rw [hq] at h6
    simpa using h6
  · simp [hq]

theorem TxInv_add_queue_mid {u : WPUndo} {op : WPUndoOperation} (h : TxInv u) :
    TxInv (wp_undo_add_queue u op) ∧
    (wp_undo_add_queue u op).priv.undo_queue.length = u.priv.undo_queue.length := by
  obtain ⟨h1, h2, h3, h4, h5, h6, h7, hcur, o, g, gs, hq⟩ := h
  rw [wp_undo_add_queue]
  dsimp only
  rw [if_neg (by simp [h3])]
  have hfr : addQueueFresh u = u := by
    rw [addQueueFresh, if_neg (by simp [h1, h2])]
  rw [hfr]
  rw [addQueuePrepend.eq_def, hcur, hq]
  dsimp only
  rw [addQueueEvict]
  rw [if_neg (by simp [h2])]
  refine ⟨⟨?_, ?_, ?_, ?_, ?_, ?_, ?_, ?_, ?_⟩, ?_⟩
  · simpa using h1
  · simpa using h2
  · simpa using h3
  · simpa using h4
  · simpa using h5
  · rw [hq] at h6
    simp only [wp_undo_send_signals_undo_queue_len, wp_undo_send_signals_undo_queue]
    simpa using h6
  · simpa using h7
  · simp only [wp_undo_send_signals_current_op]
  · refine ⟨{ op with text := remove_image_tags op.text }, o :: g, gs, ?_⟩
    simp only [wp_undo_send_signals_undo_queue]
  · simp only [wp_undo_send_signals_undo_queue]
    simp [hq]

theorem add_queue_first {u : WPUndo} {op : WPUndoOperation}
    (hg : u.priv.group = 1) (hf : u.priv.first_in_group = true)
    (hd : u.priv.disable_this_group = false) (hud : u.priv.undo_disabled = 0)
    (hlm : u.priv.low_mem = false) (hmax : u.priv.max_undo_level = 5)
    (hlen : u.priv.undo_queue_len = u.priv.undo_queue.length)
    (hcur : u.priv.current_op = CurOpRef.null ∨
      (u.priv.current_op = CurOpRef.live ∧ curLiveShape u)) :
    TxInv (wp_undo_add_queue u op) ∧
    (wp_undo_add_queue u op).priv.undo_queue.length =
      min (u.priv.undo_queue.length + 1) 5 := by
  rw [wp_undo_add_queue]
  dsimp only
  rw [if_neg (by simp [hd])]
  have hfr : ∃ w : WPUndo,
      addQueueFresh u = w ∧
      w.priv.group = u.priv.group ∧ w.priv.first_in_group = false ∧
      w.priv.disable_this_group = u.priv.disable_this_group ∧
      w.priv.undo_disabled = u.priv.undo_disabled ∧
      w.priv.low_mem = u.priv.low_mem ∧
      w.priv.max_undo_level = u.priv.max_undo_level ∧
      w.priv.undo_queue_len = u.priv.undo_queue_len ∧
      w.priv.undo_queue.length = u.priv.undo_queue.length ∧
      w.priv.current_op = CurOpRef.null := by
    rw [addQueueFresh, if_pos (by simp [hf])]
    rcases hcur with hnull | ⟨hlive, o, g, gs, hq⟩
    · rw [wp_undo_reset_mergeable.eq_def]
      have : curOpVal u = none := by
        rw [curOpVal, hnull]
      rw [this]
      exact ⟨_, rfl, rfl, rfl, rfl, rfl, rfl, rfl, rfl, rfl, hnull⟩
    · rw [wp_undo_reset_mergeable.eq_def]
      have : curOpVal u = some o := by
        rw [curOpVal, hlive, hq]
      rw [this]
      dsimp only
      rw [setCurOp.eq_def, hlive, hq]
      dsimp only
      exact ⟨_, rfl, rfl, rfl, rfl, rfl, rfl, rfl, rfl, by simp [hq], rfl⟩
  obtain ⟨w, hw, wg, wf, wd, wud, wlm, wmax, wlen, wql, wnull⟩ := hfr
  rw [hw]
  rw [addQueuePrepend.eq_def, wnull]
  dsimp only
  rw [addQueueEvict]
  rw [if_pos hf]
  dsimp only
  by_cases hcap : w.priv.undo_queue_len + 1 > 5
  · rw [if_pos (by rw [wmax, hmax]; exact hcap)]
    have hq5 : w.priv.undo_queue.length ≥ 5 := by
      rw [wql] at *
      omega
    refine ⟨⟨?_, ?_, ?_, ?_, ?_, ?_, ?_, ?_, ?_⟩, ?_⟩
    · simp only [wp_undo_send_signals_group]
      rw [wg, hg]
    · simp only [wp_undo_send_signals_first_in_group]
      exact wf
    · simp only [wp_undo_send_signals_disable_this_group]
      rw [wd, hd]
    · simp only [wp_undo_send_signals_undo_disabled]
      rw [wud, hud]
    · simp only [wp_undo_send_signals_low_mem]
      rw [wlm, hlm]
    · simp only [wp_undo_send_signals_undo_queue_len, wp_undo_send_signals_undo_queue]
      rw [wmax, hmax]
      simp only [List.length_take, List.length_cons]
      omega
    · simp only [wp_undo_send_signals_max_undo_level]
      rw [wmax, hmax]
    · simp only [wp_undo_send_signals_current_op]
    · refine ⟨{ op with text := remove_image_tags op.text },
        [], w.priv.undo_queue.take 4, ?_⟩
      simp only [wp_undo_send_signals_undo_queue]
      rw [wmax, hmax]
      exact List.take_succ_cons
    · simp only [wp_undo_send_signals_undo_queue]
      rw [wmax, hmax, List.length_take]
      simp only [List.length_cons, wql]
      omega
  · rw [if_neg (by rw [wmax, hmax]; exact hcap)]
    refine ⟨⟨?_, ?_, ?_, ?_, ?_, ?_, ?_, ?_, ?_⟩, ?_⟩
    · simp only [wp_undo_send_signals_group]
      rw [wg, hg]
    · simp only [wp_undo_send_signals_first_in_group]
      exact wf
    · simp only [wp_undo_send_signals_disable_this_group]
      rw [wd, hd]
    · simp only [wp_undo_send_signals_undo_disabled]
      rw [wud, hud]
    · simp only [wp_undo_send_signals_low_mem]
      rw [wlm, hlm]
    · simp only [wp_undo_send_signals_undo_queue_len, wp_undo_send_signals_undo_queue]
      simp only [List.length_cons]
      rw [wlen, hlen, wql]
    · simp only [wp_undo_send_signals_max_undo_level]
      rw [wmax, hmax]
    · simp only [wp_undo_send_signals_current_op]
    · exact ⟨{ op with text := remove_image_tags op.text }, [], w.priv.undo_queue,
        by simp only [wp_undo_send_signals_undo_queue]⟩
    · simp only [wp_undo_send_signals_undo_queue]
      simp only [List.length_cons, wql]
      rw [wlen, hlen] at hcap
      omega

theorem TxInv_insert_text_new_mid {u : WPUndo} {cstart cstop : Nat}
    {text : List Char} {mb isp : Bool} (h : TxInv u) :
    TxInv (wp_undo_insert_text_new u true cstart cstop text mb isp) ∧
    (wp_undo_insert_text_new u true cstart cstop text mb isp).priv.undo_queue.length =
      u.priv.undo_queue.length := by
  rw [wp_undo_insert_text_new]
  dsimp only
  rw [if_neg (by simp)]
  refine ⟨(TxInv_add_queue_mid ?_).1, Eq.trans (TxInv_add_queue_mid ?_).2 rfl⟩ <;>
    exact ⟨h.1, h.2.1, h.2.2.1, h.2.2.2.1, h.2.2.2.2.1, h.2.2.2.2.2.1,
      h.2.2.2.2.2.2.1, h.2.2.2.2.2.2.2.1, h.2.2.2.2.2.2.2.2⟩

theorem TxInv_insert_text_mid {u : WPUndo} (pos : Nat) (text : List Char)
    (h : TxInv u) :
    TxInv (wp_undo_insert_text u true pos text) ∧
    (wp_undo_insert_text u true pos text).priv.undo_queue.length =
      u.priv.undo_queue.length := by
  rw [wp_undo_insert_text]
  dsimp only
  rw [if_neg (by simp [h.2.2.2.1, h.2.2.2.2.1])]
  rcases hco : curOpVal u with _ | la
  · exact TxInv_insert_text_new_mid h
  · dsimp only
    split
    · split
      · have hs := TxInv_setCurOp_mid
          ({ la with
            text := la.text ++ text
            tags := update_tags_range la.tags la.start la.stop
            stop := pos + text.length }) h
        exact ⟨⟨hs.1.1, hs.1.2.1, hs.1.2.2.1, hs.1.2.2.2.1, hs.1.2.2.2.2.1,
          hs.1.2.2.2.2.2.1, hs.1.2.2.2.2.2.2.1, hs.1.2.2.2.2.2.2.2.1,
          hs.1.2.2.2.2.2.2.2.2⟩, hs.2⟩
      · have hs := TxInv_setCurOp_mid { la with mergeable := false } h
        exact ⟨(TxInv_insert_text_new_mid hs.1).1,
          Eq.trans (TxInv_insert_text_new_mid hs.1).2 hs.2⟩
    · exact TxInv_insert_text_new_mid h

theorem TxInv_delete_range_new_mid {u : WPUndo} {s e : Nat} {ctext : List Char}
    {cb mt isp : Bool} (h : TxInv u) :
    TxInv (wp_undo_delete_range_new u s e ctext cb mt isp) ∧
    (wp_undo_delete_range_new u s e ctext cb mt isp).priv.undo_queue.length =
      u.priv.undo_queue.length := by
  rw [wp_undo_delete_range_new]
  dsimp only
  refine ⟨(TxInv_add_queue_mid ?_).1, Eq.trans (TxInv_add_queue_mid ?_).2 rfl⟩ <;>
    exact ⟨h.1, h.2.1, h.2.2.1, h.2.2.2.1, h.2.2.2.2.1, h.2.2.2.2.2.1,
      h.2.2.2.2.2.2.1, h.2.2.2.2.2.2.2.1, h.2.2.2.2.2.2.2.2⟩

theorem TxInv_delete_range_mid {u : WPUndo} (s e : Nat) (h : TxInv u) :
    TxInv (wp_undo_delete_range u true s e) ∧
    (wp_undo_delete_range u true s e).priv.undo_queue.length =
      u.priv.undo_queue.length := by
  rw [wp_undo_delete_range]
  dsimp only
  rw [if_neg (by simp [h.2.2.2.1, h.2.2.2.2.1])]
  rw [if_neg (by simp)]
  rcases hco : curOpVal u with _ | la
  · exact TxInv_delete_range_new_mid h
  · dsimp only
    split
    · split
      · have hs := TxInv_setCurOp_mid
          ({ la with
            text := sliceChars u.buf.chars s e ++ la.text
            start := s
            tags := update_tags_range la.tags s la.stop
            mergeable :=
              if (!(decide (e - s > 1) ||
                  decide ((sliceChars u.buf.chars s e).headD nulChar = '\n'))) = true then
                if decide (0 < u.buf.insertMark) = true then
                  !togglesAnyTagAt u.buf.chars s
                else !togglesAnyTagAt u.buf.chars e
              else false }) h
        exact ⟨⟨hs.1.1, hs.1.2.1, hs.1.2.2.1, hs.1.2.2.2.1, hs.1.2.2.2.2.1,
          hs.1.2.2.2.2.2.1, hs.1.2.2.2.2.2.2.1, hs.1.2.2.2.2.2.2.2.1,
          hs.1.2.2.2.2.2.2.2.2⟩, hs.2⟩
      · split
        · have hs := TxInv_setCurOp_mid
            ({ la with
              text := la.text ++ sliceChars u.buf.chars s e
              stop := e
              tags := update_tags_range la.tags la.start e
              mergeable :=
                if (!(decide (e - s > 1) ||
                    decide ((sliceChars u.buf.chars s e).headD nulChar = '\n'))) = true then
                  if decide (0 < u.buf.insertMark) = true then
                    !togglesAnyTagAt u.buf.chars s
                  else !togglesAnyTagAt u.buf.chars e
                else false }) h
          exact ⟨⟨hs.1.1, hs.1.2.1, hs.1.2.2.1, hs.1.2.2.2.1, hs.1.2.2.2.2.1,
            hs.1.2.2.2.2.2.1, hs.1.2.2.2.2.2.2.1, hs.1.2.2.2.2.2.2.2.1,
            hs.1.2.2.2.2.2.2.2.2⟩, hs.2⟩
        · have hs := TxInv_setCurOp_mid
            ({ la with mergeable := false }) h
          exact ⟨(TxInv_delete_range_new_mid hs.1).1,
            Eq.trans (TxInv_delete_range_new_mid hs.1).2 hs.2⟩
    · exact TxInv_delete_range_new_mid h

theorem TxInv_apply_tag_mid {u : WPUndo} (s e : Nat) (tag : Option TagId)
    (enable : Bool) (h : TxInv u) :
    TxInv (wp_undo_apply_tag u true s e tag enable) ∧
    (wp_undo_apply_tag u true s e tag enable).priv.undo_queue.length =
      u.priv.undo_queue.length := by
  rw [wp_undo_apply_tag.eq_def]
  dsimp only
  rw [if_neg (by simp [h.2.2.2.1, h.2.2.2.2.1])]
  rcases hco : curOpVal u with _ | op
  · rcases tag with _ | t
    · dsimp only
      rw [if_neg (by simp)]
      refine ⟨(TxInv_add_queue_mid ?_).1, Eq.trans (TxInv_add_queue_mid ?_).2 rfl⟩ <;>
        exact ⟨h.1, h.2.1, h.2.2.1, h.2.2.2.1, h.2.2.2.2.1, h.2.2.2.2.2.1,
          h.2.2.2.2.2.2.1, h.2.2.2.2.2.2.2.1, h.2.2.2.2.2.2.2.2⟩
    · exact ⟨h, rfl⟩
  · rcases tag with _ | t
    · dsimp only
      rw [if_neg (by simp)]
      refine ⟨(TxInv_add_queue_mid ?_).1, Eq.trans (TxInv_add_queue_mid ?_).2 rfl⟩ <;>
        exact ⟨h.1, h.2.1, h.2.2.1, h.2.2.2.1, h.2.2.2.2.1, h.2.2.2.2.2.1,
          h.2.2.2.2.2.2.1, h.2.2.2.2.2.2.2.1, h.2.2.2.2.2.2.2.2⟩
    · dsimp only
      rcases hty : op.type with _ | _ | _ | _ | _ | _ | _
      all_goals simp only [hty]
      · exact TxInv_setCurOp_mid
          ({ op with
            type := WPUndoType.insert
            tags := op.tags ++ [wp_undo_create_tag s e t enable] }) h
      · exact ⟨h, trivial⟩
      · split
        · exact TxInv_setCurOp_mid
            ({ op with
              type := WPUndoType.tag
              tags := wp_undo_create_tag s e t enable :: op.tags }) h
        · exact ⟨h, rfl⟩
      · exact ⟨h, trivial⟩
      · exact ⟨h, trivial⟩
      · exact TxInv_setCurOp_mid
          ({ op with
            type := WPUndoType.fmt
            tags := wp_undo_create_tag s e t enable :: op.tags }) h
      · exact ⟨h, trivial⟩

theorem TxInv_buf {u : WPUndo} {b : TextBuffer} (h : TxInv u) :
    TxInv { u with buf := b } :=
  ⟨h.1, h.2.1, h.2.2.1, h.2.2.2.1, h.2.2.2.2.1, h.2.2.2.2.2.1,
    h.2.2.2.2.2.2.1, h.2.2.2.2.2.2.2.1, h.2.2.2.2.2.2.2.2⟩

theorem TxInv_spanFold (changes : List (TagId × Bool)) (s e : Nat) :
    ∀ {u : WPUndo}, TxInv u →
    TxInv (changes.foldl
      (fun u ch =>
        let u := { u with buf := if ch.2 then u.buf.applyTag ch.1 s e else u.buf.removeTag ch.1 s e }
        wp_undo_apply_tag u true s e (some ch.1) ch.2) u) ∧
    (changes.foldl
      (fun u ch =>
        let u := { u with buf := if ch.2 then u.buf.applyTag ch.1 s e else u.buf.removeTag ch.1 s e }
        wp_undo_apply_tag u true s e (some ch.1) ch.2) u).priv.undo_queue.length =
      u.priv.undo_queue.length := by
  induction changes with
  | nil => intro u h; exact ⟨h, rfl⟩
  | cons ch chs ih =>
    intro u h
    rw [List.foldl_cons]
    have h1 := @TxInv_apply_tag_mid
      { u with buf := if ch.2 then u.buf.applyTag ch.1 s e else u.buf.removeTag ch.1 s e }
      s e (some ch.1) ch.2 (TxInv_buf h)
    have h2 := ih h1.1
    exact ⟨h2.1, by rw [h2.2, h1.2]⟩

theorem TxInv_execTxCmd_mid {u : WPUndo} (c : TxCmd) (h : TxInv u) :
    TxInv (execTxCmd u c) ∧
    (execTxCmd u c).priv.undo_queue.length = u.priv.undo_queue.length := by
  rcases c with ⟨pos, text⟩ | ⟨s, e⟩ | ⟨s, e, changes⟩
  · rw [execTxCmd]
    dsimp only
    have h1 := TxInv_insert_text_mid pos text h
    exact ⟨TxInv_buf h1.1, h1.2⟩
  · rw [execTxCmd]
    dsimp only
    have h1 := TxInv_delete_range_mid s e h
    exact ⟨TxInv_buf h1.1, h1.2⟩
  · rw [execTxCmd]
    dsimp only
    have h1 := TxInv_apply_tag_mid s e none false h
    have h2 := TxInv_spanFold changes s e h1.1
    exact ⟨h2.1, by rw [h2.2, h1.2]⟩

theorem TxInv_insert_text_new_first {u : WPUndo} (cstart cstop : Nat)
    (text : List Char) (mb isp : Bool)
    (hg : u.priv.group = 1) (hf : u.priv.first_in_group = true)
    (hd : u.priv.disable_this_group = false) (hud : u.priv.undo_disabled = 0)
    (hlm : u.priv.low_mem = false) (hmax : u.priv.max_undo_level = 5)
    (hlen : u.priv.undo_queue_len = u.priv.undo_queue.length)
    (hcur : u.priv.current_op = CurOpRef.null ∨
      (u.priv.current_op = CurOpRef.live ∧ curLiveShape u)) :
    TxInv (wp_undo_insert_text_new u true cstart cstop text mb isp) ∧
    (wp_undo_insert_text_new u true cstart cstop text mb isp).priv.undo_queue.length =
      min (u.priv.undo_queue.length + 1) 5 := by
  rw [wp_undo_insert_text_new]
  dsimp only
  rw [if_neg (by simp)]
  refine ⟨(add_queue_first ?_ ?_ ?_ ?_ ?_ ?_ ?_ ?_).1,
    (add_queue_first ?_ ?_ ?_ ?_ ?_ ?_ ?_ ?_).2⟩ <;>
    first
      | exact hg
      | exact hf
      | exact hd
      | exact hud
      | exact hlm
      | exact hmax
      | exact hlen
      | exact hcur

theorem TxInv_delete_range_new_first {u : WPUndo} (s e : Nat) (ctext : List Char)
    (cb mt isp : Bool)
    (hg : u.priv.group = 1) (hf : u.priv.first_in_group = true)
    (hd : u.priv.disable_this_group = false) (hud : u.priv.undo_disabled = 0)
    (hlm : u.priv.low_mem = false) (hmax : u.priv.max_undo_level = 5)
    (hlen : u.priv.undo_queue_len = u.priv.undo_queue.length)
    (hcur : u.priv.current_op = CurOpRef.null ∨
      (u.priv.current_op = CurOpRef.live ∧ curLiveShape u)) :
    TxInv (wp_undo_delete_range_new u s e ctext cb mt isp) ∧
    (wp_undo_delete_range_new u s e ctext cb mt isp).priv.undo_queue.length =
      min (u.priv.undo_queue.length + 1) 5 := by
  rw [wp_undo_delete_range_new]
  dsimp only
  refine ⟨(add_queue_first ?_ ?_ ?_ ?_ ?_ ?_ ?_ ?_).1,
    (add_queue_first ?_ ?_ ?_ ?_ ?_ ?_ ?_ ?_).2⟩ <;>
    first
      | exact hg
      | exact hf
      | exact hd
      | exact hud
      | exact hlm
      | exact hmax
      | exact hlen
      | exact hcur

theorem TxInv_execTxCmd_first (u : WPUndo) (c : TxCmd)
    (hg : u.priv.group = 1) (hf : u.priv.first_in_group = true)
    (hd : u.priv.disable_this_group = false) (hud : u.priv.undo_disabled = 0)
    (hlm : u.priv.low_mem = false) (hmax : u.priv.max_undo_level = 5)
    (hlen : u.priv.undo_queue_len = u.priv.undo_queue.length)
    (hcur : u.priv.current_op = CurOpRef.null ∨
      (u.priv.current_op = CurOpRef.live ∧ curLiveShape u))
    (hnm : cmdNonMerging c = true) :
    TxInv (execTxCmd u c) ∧
    (execTxCmd u c).priv.undo_queue.length =
      min (u.priv.undo_queue.length + 1) 5 := by
  rcases c with ⟨pos, text⟩ | ⟨s, e⟩ | ⟨s, e, changes⟩
  · rw [cmdNonMerging] at hnm
    have htl : text.length > 1 := by simpa using hnm
    rw [execTxCmd]
    dsimp only
    rw [wp_undo_insert_text]
    dsimp only
    rw [if_neg (by simp [hud, hlm])]
    have hmb : decide (pos + text.length - pos > 1) = true := by
      simp only [Nat.add_sub_cancel_left, decide_eq_true_iff]
      exact htl
    rcases hco : curOpVal u with _ | la
    · have h1 := TxInv_insert_text_new_first pos (pos + text.length)
        text
        (!(decide (pos + text.length - pos > 1) || decide (text.headD nulChar = '\n')))
        ((!(decide (pos + text.length - pos > 1) ||
          decide (text.headD nulChar = '\n'))) && gUnicharIsspace (text.headD nulChar))
        hg hf hd hud hlm hmax hlen hcur
      exact ⟨TxInv_buf h1.1, h1.2⟩
    · dsimp only
      rw [if_neg (by
        simp
        intro h1
        exact absurd htl (by omega))]
      have h1 := TxInv_insert_text_new_first pos (pos + text.length)
        text
        (!(decide (pos + text.length - pos > 1) || decide (text.headD nulChar = '\n')))
        ((!(decide (pos + text.length - pos > 1) ||
          decide (text.headD nulChar = '\n'))) && gUnicharIsspace (text.headD nulChar))
        hg hf hd hud hlm hmax hlen hcur
      exact ⟨TxInv_buf h1.1, h1.2⟩
  · rw [cmdNonMerging] at hnm
    have hde : e - s > 1 := by simpa using hnm
    rw [execTxCmd]
    dsimp only
    rw [wp_undo_delete_range]
    dsimp only
    rw [if_neg (by simp [hud, hlm])]
    rw [if_neg (by simp)]
    have hcm : decide (e - s > 1) = true := by
      simpa using hde
    rcases hco : curOpVal u with _ | la
    · have h1 := TxInv_delete_range_new_first s e
        (sliceChars u.buf.chars s e) (decide (0 < u.buf.insertMark))
        (if (!(decide (e - s > 1) ||
            decide ((sliceChars u.buf.chars s e).headD nulChar = '\n'))) = true then
            if decide (0 < u.buf.insertMark) = true then !togglesAnyTagAt u.buf.chars s
            else !togglesAnyTagAt u.buf.chars e
          else false)
        (gUnicharIsspace ((sliceChars u.buf.chars s e).headD nulChar))
        hg hf hd hud hlm hmax hlen hcur
      exact ⟨TxInv_buf h1.1, h1.2⟩
    · dsimp only
      rw [if_neg (by
        simp
        intro h1
        exact absurd hde (by omega))]
      have h1 := TxInv_delete_range_new_first s e
        (sliceChars u.buf.chars s e) (decide (0 < u.buf.insertMark))
        (if (!(decide (e - s > 1) ||
            decide ((sliceChars u.buf.chars s e).headD nulChar = '\n'))) = true then
            if decide (0 < u.buf.insertMark) = true then !togglesAnyTagAt u.buf.chars s
            else !togglesAnyTagAt u.buf.chars e
          else false)
        (gUnicharIsspace ((sliceChars u.buf.chars s e).headD nulChar))
        hg hf hd hud hlm hmax hlen hcur
      exact ⟨TxInv_buf h1.1, h1.2⟩
  · rw [execTxCmd]
    dsimp only
    have h1 : TxInv (wp_undo_apply_tag u true s e none false) ∧
        (wp_undo_apply_tag u true s e none false).priv.undo_queue.length =
          min (u.priv.undo_queue.length + 1) 5 := by
      rw [wp_undo_apply_tag.eq_def]
      dsimp only
      rw [if_neg (by simp [hud, hlm])]
      rcases hco : curOpVal u with _ | op
      · dsimp only
        rw [if_neg (by simp)]
        exact ⟨(add_queue_first hg hf hd hud hlm hmax hlen hcur).1,
          (add_queue_first hg hf hd hud hlm hmax hlen hcur).2⟩
      · dsimp only
        rw [if_neg (by simp)]
        exact ⟨(add_queue_first hg hf hd hud hlm hmax hlen hcur).1,
          (add_queue_first hg hf hd hud hlm hmax hlen hcur).2⟩
    have h2 := TxInv_spanFold changes s e h1.1
    exact ⟨h2.1, by rw [h2.2, h1.2]⟩


theorem TxInv_foldl_mid (cs : List TxCmd) {u : WPUndo} (h : TxInv u) :
    TxInv (cs.foldl execTxCmd u) ∧
    (cs.foldl execTxCmd u).priv.undo_queue.length = u.priv.undo_queue.length := by
  induction cs generalizing u with
  | nil => exact ⟨h, rfl⟩
  | cons c cs ih =>
    rw [List.foldl_cons]
    have h1 := TxInv_execTxCmd_mid c h
    have h2 := ih h1.1
    exact ⟨h2.1, by rw [h2.2, h1.2]⟩

theorem SInv_execTx_step {u : WPUndo} {tx : List TxCmd} (h : SInv u)
    (hnm : txNonMerging tx = true) :
    SInv (execTx u tx) ∧
    (execTx u tx).priv.undo_queue.length = min (u.priv.undo_queue.length + 1) 5 := by
  obtain ⟨h1, h2, h3, h4, h5, h6⟩ := h
  rcases tx with _ | ⟨c, cs⟩
  · rw [txNonMerging] at hnm
    cases hnm
  · rw [txNonMerging] at hnm
    rw [execTx]
    have hsg : wp_undo_start_group u =
        { u with priv :=
            { u.priv with group := u.priv.group + 1, first_in_group := true,
                          disable_this_group := false } } := by
      rw [wp_undo_start_group]
      rw [if_pos (by omega)]
    rw [List.foldl_cons]
    have hfirst := TxInv_execTxCmd_first (wp_undo_start_group u) c
      (by rw [hsg]; show u.priv.group + 1 = 1; omega)
      (by rw [hsg]) (by rw [hsg]) (by rw [hsg]; exact h2) (by rw [hsg]; exact h3)
      (by rw [hsg]; exact h5) (by rw [hsg]; exact h4)
      (by
        rw [hsg]
        rcases h6 with hnull | ⟨hlive, o, g, gs, hq⟩
        · exact Or.inl hnull
        · exact Or.inr ⟨hlive, o, g, gs, hq⟩)
      hnm
    have hfold := TxInv_foldl_mid cs hfirst.1
    have hend : ∀ v : WPUndo, TxInv v →
        SInv (wp_undo_end_group v) ∧
        (wp_undo_end_group v).priv.undo_queue.length = v.priv.undo_queue.length := by
      intro v hv
      rw [wp_undo_end_group]
      rw [if_pos (by rw [hv.1]; omega)]
      refine ⟨⟨?_, ?_, ?_, ?_, ?_, ?_⟩, rfl⟩
      · show v.priv.group - 1 = 0
        rw [hv.1]
        omega
      · exact hv.2.2.2.1
      · exact hv.2.2.2.2.1
      · exact hv.2.2.2.2.2.1
      · exact hv.2.2.2.2.2.2.1
      · exact Or.inr ⟨hv.2.2.2.2.2.2.2.1, hv.2.2.2.2.2.2.2.2⟩
    have he := hend _ hfold.1
    refine ⟨he.1, ?_⟩
    rw [he.2, hfold.2, hfirst.2]
    have : (wp_undo_start_group u).priv.undo_queue.length = u.priv.undo_queue.length := by
      rw [hsg]
    rw [this]

theorem SInv_runTxs {u : WPUndo} (txs : List (List TxCmd)) (h : SInv u)
    (hle : u.priv.undo_queue.length ≤ 5)
    (hnm : ∀ tx ∈ txs, txNonMerging tx = true) :
    SInv (runTxs u txs) ∧
    (runTxs u txs).priv.undo_queue.length =
      min (u.priv.undo_queue.length + txs.length) 5 := by
  induction txs generalizing u with
  | nil =>
    refine ⟨h, ?_⟩
    rw [runTxs, List.foldl_nil, List.length_nil]
    omega
  | cons tx txs ih =>
    have hstep := SInv_execTx_step h (hnm tx (List.mem_cons_self tx txs))
    have hrec := ih hstep.1 (by rw [hstep.2]; omega)
      (fun t ht => hnm t (List.mem_cons_of_mem tx ht))
    rw [runTxs, List.foldl_cons]
    refine ⟨hrec.1, ?_⟩
    rw [show (List.foldl execTx (execTx u tx) txs) = runTxs (execTx u tx) txs from rfl]
    rw [hrec.2, hstep.2, List.length_cons]
    omega

theorem undoTrailingReset_undo_queue (u : WPUndo) :
    (undoTrailingReset u).priv.undo_queue = u.priv.undo_queue := by
  rw [undoTrailingReset.eq_def]
  split
  · split <;> rfl
  · rfl
  · rfl

theorem undoTrailingReset_low_mem (u : WPUndo) :
    (undoTrailingReset u).priv.low_mem = u.priv.low_mem := by
  rw [undoTrailingReset.eq_def]
  split
  · split <;> rfl
  · rfl
  · rfl

theorem undo_pop {u : WPUndo} (hlm : u.priv.low_mem = false) :
    (wp_undo_undo u).priv.undo_queue = u.priv.undo_queue.tail ∧
    (wp_undo_undo u).priv.low_mem = false := by
  rw [wp_undo_undo]
  rcases hq : u.priv.undo_queue with _ | ⟨g, gs⟩
  · rw [if_pos (by simp [hq, hlm])]
    rw [hq]
    exact ⟨rfl, hlm⟩
  · rw [if_neg (by simp [hq, hlm])]
    dsimp only
    split
    · constructor
      · rw [wp_undo_send_signals_undo_queue, undoTrailingReset_undo_queue]
        rfl
      · rw [wp_undo_send_signals_low_mem, undoTrailingReset_low_mem]
        exact hlm
    · constructor
      · rw [wp_undo_send_signals_undo_queue, undoTrailingReset_undo_queue]
        rfl
      · rw [wp_undo_send_signals_low_mem, undoTrailingReset_low_mem]
        exact hlm

theorem undo_iterate (n : Nat) {u : WPUndo} (hlm : u.priv.low_mem = false) :
    (wp_undo_undo^[n] u).priv.undo_queue = u.priv.undo_queue.drop n ∧
    (wp_undo_undo^[n] u).priv.low_mem = false := by
  induction n with
  | zero => exact ⟨rfl, hlm⟩
  | succ n ih =>
    rw [Function.iterate_succ_apply']
    have h1 := undo_pop ih.2
    constructor
    · rw [h1.1, ih.1]
      rw [List.tail_drop]
    · exact h1.2

/-- Ten transactions, each inserting the two characters "ab" at offset
zero in its own group. -/
def c4Txs : List (List TxCmd) :=
  List.replicate 10 [TxCmd.ins 0 ['a', 'b']]

/-- C4: recording ten transactions on a fresh engine (default bound 5),
each opening with a command that cannot merge into the previous group,
leaves `can_undo` true with exactly five groups in the undo queue (the
five oldest were evicted, the counter agrees), and five `undo` calls
then empty the queue and turn `can_undo` off. -/
theorem capacity_eviction_five (txs : List (List TxCmd))
    (hlen : txs.length = 10)
    (hnm : ∀ tx ∈ txs, txNonMerging tx = true) :
    wp_undo_can_undo (runTxs (wp_undo_new { chars := [] }) txs) = true ∧
    (runTxs (wp_undo_new { chars := [] }) txs).priv.undo_queue.length = 5 ∧
    (runTxs (wp_undo_new { chars := [] }) txs).priv.undo_queue_len = 5 ∧
    (wp_undo_undo^[5] (runTxs (wp_undo_new { chars := [] }) txs)).priv.undo_queue = [] ∧
    wp_undo_can_undo (wp_undo_undo^[5] (runTxs (wp_undo_new { chars := [] }) txs)) = false := by
  have h0 : SInv (wp_undo_new { chars := [] }) :=
    ⟨rfl, rfl, rfl, rfl, rfl, Or.inl rfl⟩
  have hrun := SInv_runTxs txs h0 (by decide) hnm
  have hql : (runTxs (wp_undo_new { chars := [] }) txs).priv.undo_queue.length = 5 := by
    rw [hrun.2, hlen]
    rfl
  have hlm : (runTxs (wp_undo_new { chars := [] }) txs).priv.low_mem = false :=
    hrun.1.2.2.1
  have hiter := undo_iterate 5 hlm
  refine ⟨?_, hql, ?_, ?_, ?_⟩
  · rw [wp_undo_can_undo, hlm]
    rcases hq : (runTxs (wp_undo_new { chars := [] }) txs).priv.undo_queue with _ | ⟨g, gs⟩
    · rw [hq] at hql
      simp at hql
    · rfl
  · rw [hrun.1.2.2.2.1, hql]
  · rw [hiter.1, List.drop_eq_nil_iff, hql]
  · rw [wp_undo_can_undo, hiter.1, List.drop_eq_nil_iff.mpr (by rw [hql])]
    rfl

theorem capacity_eviction_witness :
    (c4Txs.length = 10 ∧ ∀ tx ∈ c4Txs, txNonMerging tx = true) ∧
    (wp_undo_can_undo (runTxs (wp_undo_new { chars := [] }) c4Txs) = true ∧
     (runTxs (wp_undo_new { chars := [] }) c4Txs).priv.undo_queue.length = 5 ∧
     (runTxs (wp_undo_new { chars := [] }) c4Txs).priv.undo_queue_len = 5 ∧
     (wp_undo_undo^[5] (runTxs (wp_undo_new { chars := [] }) c4Txs)).priv.undo_queue = [] ∧
     wp_undo_can_undo (wp_undo_undo^[5] (runTxs (wp_undo_new { chars := [] }) c4Txs)) = false) :=
  ⟨⟨by decide, by decide⟩, capacity_eviction_five c4Txs (by decide) (by decide)⟩

/-- The order the SPEC prescribes for `undo`: identical to `wp_undo_undo`
except that the popped group's operations are applied first-recorded
first — since `wp_undo_add_queue` prepends, that is the reverse of the
stored list order.  This definition follows the specification's words,
for comparison with `wp_undo_undo`. -/
def wp_undo_undo_spec_recorded_order (u : WPUndo) : WPUndo :=
  if u.priv.undo_queue.isEmpty || u.priv.low_mem then u
  else
    match u.priv.undo_queue with
    | [] => u
    | g :: gs =>
      let u :=
        { u with priv :=
            { u.priv with
              undo_queue := gs
              redo_queue := g :: u.priv.redo_queue
              undo_queue_len := u.priv.undo_queue_len - 1
              undo_disabled := u.priv.undo_disabled + 1 } }
      let step := fun (acc : TextBuffer × Option Nat × List WPSignal) op =>
        let r := undoOpStep gs acc.1 acc.2.1 op
        (r.1, r.2.1, acc.2.2 ++ r.2.2)
      let res := g.reverse.foldl step (u.buf, none, [])
      let u := { u with buf := res.1 }
      let u := { u with priv := { u.priv with events := u.priv.events ++ res.2.2 } }
      let u :=
        match res.2.1 with
        | some p => { u with buf := u.buf.placeCursor p }
        | none => u
      let u := wp_undo_thaw u
      wp_undo_send_signals (undoTrailingReset u)

/-- The state reached by one transaction that inserts "ab" at offset 0
and then "cd" at offset 2 (two non-mergeable operations in one group). -/
def c2State : WPUndo :=
  runTxs (wp_undo_new { chars := [] })
    [[TxCmd.ins 0 ['a', 'b'], TxCmd.ins 2 ['c', 'd']]]

/-- A group up to the mergeable flags of its operations. -/
def forgetMergeable (g : List WPUndoOperation) : List WPUndoOperation :=
  g.map (fun op => { op with mergeable := false })

/-- C2 counterexample: a group holding two operations is stored
last-recorded first ([2, 0] are the start offsets), and `wp_undo_undo`
applies it in that stored order — undoing "ab"@0 then "cd"@2 leaves "",
whereas applying first-recorded first (the spec's words) would leave
"cd".  So the operations are applied in reverse recorded order, not
original recorded order. -/
theorem undo_recorded_order_counterexample :
    (c2State.priv.undo_queue.headD []).length = 2 ∧
    (c2State.priv.undo_queue.headD []).map (fun op => op.start) = [2, 0] ∧
    (wp_undo_undo c2State).buf.text = [] ∧
    (wp_undo_undo_spec_recorded_order c2State).buf.text = ['c', 'd'] := by
  refine ⟨by decide, by decide, by decide, by decide⟩

theorem undoTrailingReset_buf (u : WPUndo) :
    (undoTrailingReset u).buf = u.buf := by
  rw [undoTrailingReset.eq_def]
  split
  · split <;> rfl
  · rfl
  · rfl

/-- C2 (amended): for any state with a head undo group, `wp_undo_undo`
pops that group from the undo queue, pushes it (up to the head
operation's mergeable flag, cleared through the still-set `current_op`)
onto the redo queue, and applies its operations in the stored list
order — which is the reverse of the recorded order, because
`wp_undo_add_queue` prepends each new operation. -/
theorem undo_pops_and_applies_stored_order (u : WPUndo)
    (g : List WPUndoOperation) (gs : List (List WPUndoOperation))
    (hlm : u.priv.low_mem = false)
    (hq : u.priv.undo_queue = g :: gs) :
    (wp_undo_undo u).priv.undo_queue = gs ∧
    (∃ g2, (wp_undo_undo u).priv.redo_queue = g2 :: u.priv.redo_queue ∧
      forgetMergeable g2 = forgetMergeable g) ∧
    (wp_undo_undo u).buf.chars =
      (g.foldl
        (fun (acc : TextBuffer × Option Nat × List WPSignal) op =>
          let r := undoOpStep gs acc.1 acc.2.1 op
          (r.1, r.2.1, acc.2.2 ++ r.2.2)) (u.buf, none, [])).1.chars := by
  rcases g with _ | ⟨op0, grest⟩
  · rw [wp_undo_undo]
    rw [if_neg (by simp [hq, hlm])]
    rw [hq]
    dsimp only
    split
    all_goals refine ⟨?_, ⟨[], ?_, rfl⟩, ?_⟩
    · rw [wp_undo_send_signals_undo_queue, undoTrailingReset_undo_queue]
      rfl
    · rw [wp_undo_send_signals_redo_queue, undoTrailingReset.eq_def]
      dsimp only [wp_undo_thaw]
      split <;> rfl
    · rw [wp_undo_send_signals_buf, undoTrailingReset_buf]
      rfl
    · rw [wp_undo_send_signals_undo_queue, undoTrailingReset_undo_queue]
      rfl
    · rw [wp_undo_send_signals_redo_queue, undoTrailingReset.eq_def]
      dsimp only [wp_undo_thaw]
      split <;> rfl
    · rw [wp_undo_send_signals_buf, undoTrailingReset_buf]
      rfl
  · rw [wp_undo_undo]
    rw [if_neg (by simp [hq, hlm])]
    rw [hq]
    dsimp only
    split
    all_goals refine ⟨?_, ?_, ?_⟩
    · rw [wp_undo_send_signals_undo_queue, undoTrailingReset_undo_queue]
      rfl
    · rw [wp_undo_send_signals_redo_queue, undoTrailingReset.eq_def]
      dsimp only [wp_undo_thaw]
      split
      · exact ⟨{ op0 with mergeable := false } :: grest, rfl, by simp [forgetMergeable]⟩
      · exact ⟨op0 :: grest, rfl, rfl⟩
      · exact ⟨op0 :: grest, rfl, rfl⟩
    · rw [wp_undo_send_signals_buf, undoTrailingReset_buf]
      rfl
    · rw [wp_undo_send_signals_undo_queue, undoTrailingReset_undo_queue]
      rfl
    · rw [wp_undo_send_signals_redo_queue, undoTrailingReset.eq_def]
      dsimp only [wp_undo_thaw]
      split
      · exact ⟨{ op0 with mergeable := false } :: grest, rfl, by simp [forgetMergeable]⟩
      · exact ⟨op0 :: grest, rfl, rfl⟩
      · exact ⟨op0 :: grest, rfl, rfl⟩
    · rw [wp_undo_send_signals_buf, undoTrailingReset_buf]
      rfl

theorem undo_pops_and_applies_stored_order_witness :
    (c2State.priv.low_mem = false ∧
     c2State.priv.undo_queue =
       c2State.priv.undo_queue.headD [] :: c2State.priv.undo_queue.tail) ∧
    ((wp_undo_undo c2State).priv.undo_queue = c2State.priv.undo_queue.tail ∧
     (∃ g2, (wp_undo_undo c2State).priv.redo_queue = g2 :: c2State.priv.redo_queue ∧
       forgetMergeable g2 = forgetMergeable (c2State.priv.undo_queue.headD [])) ∧
     (wp_undo_undo c2State).buf.chars =
       ((c2State.priv.undo_queue.headD []).foldl
         (fun (acc : TextBuffer × Option Nat × List WPSignal) op =>
           let r := undoOpStep c2State.priv.undo_queue.tail acc.1 acc.2.1 op
           (r.1, r.2.1, acc.2.2 ++ r.2.2)) (c2State.buf, none, [])).1.chars) :=
  ⟨⟨by decide, by decide⟩,
    undo_pops_and_applies_stored_order c2State (c2State.priv.undo_queue.headD [])
      c2State.priv.undo_queue.tail (by decide) (by decide)⟩
